import Mathlib

/-!
Shallow embedding of the SCF residual-minimization core of JDFTx
(`src/jdftx/electronic/SCF.cpp`): the outer SCF loop (`SCF::minimize`),
plain mixing (`SCF::mixPlain`), Pulay/DIIS mixing (`SCF::mixDIIS`) and the
residual-overlap matrix bookkeeping (`overlapResiduals` and the incremental
row/column update inside `mixDIIS`).

Scalar fields are modelled as lists of rationals (one entry per grid sample);
a `DataRptrCollection` is the ordered list of scalar fields (one per spin
channel).  `integral` over the grid is modelled from the spec as a weighted
sum (weight `dV`, the cell volume element), since the grid container itself
is external to the excerpt.  The inner eigensolver (`BandMinimizer` plus
`ElecVars::elecEnergyAndGrad`), the potential recomputation
(`ElecVars::EdensityAndVscloc`) and the dense symmetric eigensolver
(`matrix::diagonalize`) are external collaborators: they enter the model as
oracle parameters, with the eigensolver's contract stated separately
(`SpecDiagonalize`).
-/

namespace JDFTxSCF

/-- One scalar field over the real-space grid (`DataRptr`): its samples. -/
abbrev DataRptr := List ℚ

/-- An ordered collection of scalar fields (`DataRptrCollection`), one per
spin channel; all fields of one collection share the grid shape. -/
abbrev DataRptrCollection := List DataRptr

/-- Modelled from the spec: `integral(f)` for a grid field is the weighted
sum of its samples (weight `dV`); the grid container and its integral are
external to the excerpt (spec section 3: "point-wise product integrated over
the domain - i.e. a weighted dot product"). -/
def integral (dV : ℚ) (f : DataRptr) : ℚ := dV * f.sum

/-- Point-wise product of two scalar fields (`r1[0]*r2[0]` in the source). -/
def fieldMul (a b : DataRptr) : DataRptr := List.zipWith (· * ·) a b

/-- `overlapResiduals(r1, r2)` from SCF.cpp line 28:
`integral(r1[0]*r2[0]) + (r1.size()==2 ? integral(r1[1]*r2[1]) : 0.)`. -/
def overlapResiduals (dV : ℚ) (r1 r2 : DataRptrCollection) : ℚ :=
  integral dV (fieldMul (r1.getD 0 []) (r2.getD 0 [])) +
    (if r1.length = 2 then integral dV (fieldMul (r1.getD 1 []) (r2.getD 1 [])) else 0)

/-- `axpy(a, x, y)` on one field: `y += a*x`, sample-wise. -/
def axpyField (a : ℚ) (x y : DataRptr) : DataRptr :=
  List.zipWith (fun yi xi => yi + a * xi) y x

/-- `axpy(a, x, y)` lifted to a collection (channel-wise). -/
def axpyColl (a : ℚ) (x y : DataRptrCollection) : DataRptrCollection :=
  List.zipWith (fun ych xch => axpyField a xch ych) y x

/-- `v *= 0.` applied to every field of a collection (lines 172-174). -/
def zeroColl (v : DataRptrCollection) : DataRptrCollection :=
  v.map (fun f => f.map (fun _ => (0 : ℚ)))

/-- One sample of plain mixing: `mixFraction*new + (1-mixFraction)*old`. -/
def mixSample (α x y : ℚ) : ℚ := α * x + (1 - α) * y

/-- Plain mixing of one field (line 115). -/
def mixField (α : ℚ) (new old : DataRptr) : DataRptr :=
  List.zipWith (mixSample α) new old

/-- Plain mixing channel-wise over a collection; the source loops
`s < e.eVars.n.size()`, which equals the collection length (all collections
hold one field per spin channel). -/
def mixColl (α : ℚ) (var prev : DataRptrCollection) : DataRptrCollection :=
  List.zipWith (mixField α) var prev

/-- Which variable defines the Kohn-Sham Hamiltonian (`rp.mixedVariable`). -/
inductive MixedVariable
  | density
  | potential
deriving DecidableEq

/-- `rp.vectorExtrapolationMethod`. -/
inductive ExtrapMethod
  | plainMixing
  | DIIS
deriving DecidableEq

/-- The electronic-variable arrays touched by the mixer: densities `n`, `tau`
and potentials `Vscloc`, `Vtau` (fields of `ElecVars`). -/
structure ElecVars where
  n : DataRptrCollection
  tau : DataRptrCollection
  Vscloc : DataRptrCollection
  Vtau : DataRptrCollection
deriving DecidableEq

/-- `variable_n` of SCF.cpp line 47: `n` when mixing densities, else `Vscloc`. -/
def variableOf : MixedVariable → ElecVars → DataRptrCollection
  | MixedVariable.density, ev => ev.n
  | MixedVariable.potential, ev => ev.Vscloc

/-- `variable_tau` of SCF.cpp line 48: `tau` when mixing densities, else `Vtau`. -/
def varTauOf : MixedVariable → ElecVars → DataRptrCollection
  | MixedVariable.density, ev => ev.tau
  | MixedVariable.potential, ev => ev.Vtau

/-- Write back through the `variable_n` reference. -/
def setVar : MixedVariable → ElecVars → DataRptrCollection → ElecVars
  | MixedVariable.density, ev, v => { ev with n := v }
  | MixedVariable.potential, ev, v => { ev with Vscloc := v }

/-- Write back through the `variable_tau` reference. -/
def setVarTau : MixedVariable → ElecVars → DataRptrCollection → ElecVars
  | MixedVariable.density, ev, v => { ev with tau := v }
  | MixedVariable.potential, ev, v => { ev with Vtau := v }

/-- `SCF::mixPlain` (lines 111-119): mixes the Hamiltonian-defining variable
in place, and - when the exchange-correlation functional needs the KE density
(`needsTau`) - writes the mixed auxiliary field into `e.eVars.tau` (line 117
writes `e.eVars.tau[s]`, reading `variable_tau[s]`), never into `Vtau`.
The per-`s` loop reads each index before writing it, so the in-place update
equals the pure channel-wise mix of the pre-call values. -/
def mixPlain (needsTau : Bool) (mv : MixedVariable) (ev : ElecVars)
    (prev_n prev_tau : DataRptrCollection) (α : ℚ) : ElecVars :=
  let ev1 := setVar mv ev (mixColl α (variableOf mv ev) prev_n)
  if needsTau then { ev1 with tau := mixColl α (varTauOf mv ev) prev_tau } else ev1

example :
    mixPlain false MixedVariable.density
      { n := [[4, 8]], tau := [], Vscloc := [], Vtau := [] } [[0, 4]] [] 1 =
      { n := [[4, 8]], tau := [], Vscloc := [], Vtau := [] } := by
  norm_num [mixPlain, setVar, variableOf, mixColl, mixField, mixSample]

example :
    mixPlain true MixedVariable.potential
      { n := [[4]], tau := [[7]], Vscloc := [[4]], Vtau := [[2]] } [[0]] [[0]] (1/2) =
      { n := [[4]], tau := [[1]], Vscloc := [[2]], Vtau := [[2]] } := by
  norm_num [mixPlain, setVar, setVarTau, variableOf, varTauOf, mixColl, mixField, mixSample]

/-- `overlap.set(i, j, v)`: functional update of one matrix entry. -/
def setEntry (M : ℕ → ℕ → ℚ) (i j : ℕ) (v : ℚ) : ℕ → ℕ → ℚ :=
  fun a b => if a = i ∧ b = j then v else M a b

/-- The overlap-update loop of `mixDIIS` (lines 137-141), unrolled for the
first `m` values of `j`: for each `j < m` it stores
`overlapResiduals(pastResiduals[j], pastResiduals.back())` at `(j, ndim-1)`
and, when `j != ndim-1`, mirrors it at `(ndim-1, j)`. -/
def updateOverlapAux (dV : ℚ) (rs : List DataRptrCollection) (ndim : ℕ) :
    ℕ → (ℕ → ℕ → ℚ) → (ℕ → ℕ → ℚ)
  | 0, M => M
  | j + 1, M =>
      let t := overlapResiduals dV (rs.getD j []) (rs.getLastD [])
      let M1 := setEntry (updateOverlapAux dV rs ndim j M) j (ndim - 1) t
      if j ≠ ndim - 1 then setEntry M1 (ndim - 1) j t else M1

/-- The full incremental overlap update for the newest residual: runs the
loop for `j = 0 .. ndim-1` with `ndim = rs.length`, where `rs` is the residual
history including the just-appended entry. -/
def updateOverlap (dV : ℚ) (M : ℕ → ℕ → ℚ) (rs : List DataRptrCollection) :
    ℕ → ℕ → ℚ :=
  updateOverlapAux dV rs rs.length rs.length M

/-- `overlap(0, ndim, 0, ndim)` (line 150): the valid `ndim × ndim` block,
zero outside. -/
def validBlock (ndim : ℕ) (M : ℕ → ℕ → ℚ) : ℕ → ℕ → ℚ :=
  fun i j => if i < ndim ∧ j < ndim then M i j else 0

/-- The overlap matrix after the first `k` residual appends of an epoch:
each append triggers one incremental `updateOverlap` on the prefix of the
residual history present at that time. -/
def overlapRunAux (dV : ℚ) (M0 : ℕ → ℕ → ℚ) (rs : List DataRptrCollection) :
    ℕ → (ℕ → ℕ → ℚ)
  | 0 => M0
  | k + 1 => updateOverlap dV (overlapRunAux dV M0 rs k) (rs.take (k + 1))

/-- Modelled from the spec: the contract of the external symmetric
eigensolver `matrix::diagonalize` (spec section 4.4: "symmetric
eigen-decomposition; ordering convention of returned eigenvalues ...
ascending, by convention").  The columns of `V` are nonzero, pairwise
orthogonal eigenvectors of the `n × n` matrix `M`, listed with ascending
eigenvalues; unit normalization is not required because `mixDIIS` only uses
ratios of column-0 entries, which are scale invariant. -/
def SpecDiagonalize (n : ℕ) (M V : ℕ → ℕ → ℚ) (eig : ℕ → ℚ) : Prop :=
  (∀ k < n, ∀ i < n, (∑ j in Finset.range n, M i j * V j k) = eig k * V i k) ∧
  (∀ k < n, (∑ i in Finset.range n, V i k * V i k) ≠ 0) ∧
  (∀ k < n, ∀ l < n, k ≠ l → (∑ i in Finset.range n, V i k * V i l) = 0) ∧
  (∀ k < n, ∀ l < n, k ≤ l → eig k ≤ eig l)

/-- The accumulation loop of the full DIIS branch (lines 176-183), unrolled
for `j = 0 .. m-1`: `acc[s] += w(j) * hist[j][s]` channel-wise. -/
def diisAccum (w : ℕ → ℚ) (hist : List DataRptrCollection) :
    ℕ → DataRptrCollection → DataRptrCollection
  | 0, acc => acc
  | j + 1, acc => axpyColl (w j) (hist.getD j []) (diisAccum w hist j acc)

/-- The coefficient-weighted recombination of the full DIIS branch
(lines 163-183): `norm` is the sum of the column-0 eigenvector entries, the
weights are `c j / norm`, the target is first zeroed (`*= 0.`) and then
accumulated over the `n` history entries. -/
def diisCombine (c : ℕ → ℚ) (n : ℕ) (v0 : DataRptrCollection)
    (hist : List DataRptrCollection) : DataRptrCollection :=
  let norm := ∑ j in Finset.range n, c j
  diisAccum (fun j => c j / norm) hist n (zeroColl v0)

/-- The residual cached at the top of `mixDIIS` (lines 129-131):
`temp = clone(variable_n); axpy(-1., pastVariables_n.back(), temp)`. -/
def diisResidual (mv : MixedVariable) (ev : ElecVars)
    (pvn : List DataRptrCollection) : DataRptrCollection :=
  axpyColl (-1) (pvn.getLastD []) (variableOf mv ev)

/-- `SCF::mixDIIS` (lines 121-187).  `diag` is the external symmetric
eigensolver (`matrix::diagonalize`), given the subspace dimension and the
valid overlap block; only column 0 of its eigenvector matrix is consumed.
Returns the updated electronic variables, the residual history with the new
residual appended, the updated overlap matrix, and the residual associated
with the step (the recombined residual in the full branch - the source
computes it in `residual` and reports its norm - or the freshly cached
residual in the fallback branch). -/
def mixDIIS (p_history : ℕ) (needsTau : Bool) (mv : MixedVariable)
    (mixFraction dV : ℚ)
    (diag : ℕ → (ℕ → ℕ → ℚ) → (ℕ → ℕ → ℚ) × (ℕ → ℚ))
    (ev : ElecVars) (pvn pvt prs : List DataRptrCollection)
    (overlap : ℕ → ℕ → ℚ) :
    ElecVars × List DataRptrCollection × (ℕ → ℕ → ℚ) × DataRptrCollection :=
  let temp := diisResidual mv ev pvn
  let prs' := prs ++ [temp]
  let ndim := prs'.length
  let overlap' := updateOverlap dV overlap prs'
  if ndim ≠ p_history then
    (mixPlain needsTau mv ev (pvn.getLastD []) (pvt.getLastD []) mixFraction,
      prs', overlap', temp)
  else
    let c : ℕ → ℚ := fun j => (diag ndim (validBlock ndim overlap')).1 j 0
    let newVar := diisCombine c ndim (variableOf mv ev) pvn
    let newRes := diisCombine c ndim temp prs'
    let newTau := diisCombine c ndim (varTauOf mv ev) pvt
    let ev1 := setVar mv ev newVar
    let ev2 := if needsTau then setVarTau mv ev1 newTau else ev1
    (ev2, prs', overlap', newRes)

/-- The configuration surface of the residual minimizer
(`ResidualMinimizerParams` plus the capability flag
`e.exCorr.needsKEdensity()` and the grid volume element used by `integral`).
The default `mixFraction` of `mixPlain` lives in SCF.h, outside the excerpt;
per spec section 6 it is the configured mixing fraction, carried here. -/
structure ScfParams where
  history : ℕ
  nIterations : ℕ
  energyDiffThreshold : ℚ
  mixedVariable : MixedVariable
  vectorExtrapolationMethod : ExtrapMethod
  needsTau : Bool
  mixFraction : ℚ
  dV : ℚ

/-- The mutable state of one `SCF::minimize` run: the electronic variables,
the energies `E` and `Eprev`, the three history buffers and the overlap
matrix, plus the convergence flag implied by the early `break` (line 92). -/
structure ScfState where
  ev : ElecVars
  E : ℚ
  Eprev : ℚ
  pastVariables_n : List DataRptrCollection
  pastVariables_tau : List DataRptrCollection
  pastResiduals : List DataRptrCollection
  overlap : ℕ → ℕ → ℚ
  converged : Bool

/-- State at loop entry (lines 52-54): empty histories, `Eprev = 0`, and `E`
*declared but never initialized* in the source (`double Eprev = 0, E;`);
the indeterminate initial content of `E` is modelled by the parameter
`Einit`.  The overlap matrix starts as the constructed `matrix` object. -/
def initState (ev0 : ElecVars) (Einit : ℚ) (M0 : ℕ → ℕ → ℚ) : ScfState :=
  { ev := ev0, E := Einit, Eprev := 0,
    pastVariables_n := [], pastVariables_tau := [], pastResiduals := [],
    overlap := M0, converged := false }

/-- "Clear history if full" (lines 59-65): when either buffer has reached
the configured depth, `pastVariables_n` is cleared, `pastVariables_tau` is
cleared if the KE density is needed (`ifTau`), and `pastResiduals` is
cleared only under DIIS. -/
def clearIfFull (p : ScfParams) (s : ScfState) : ScfState :=
  if p.history ≤ s.pastResiduals.length ∨ p.history ≤ s.pastVariables_n.length then
    { s with
      pastVariables_n := [],
      pastVariables_tau := if p.needsTau then [] else s.pastVariables_tau,
      pastResiduals :=
        if p.vectorExtrapolationMethod = ExtrapMethod.DIIS then [] else s.pastResiduals }
  else s

/-- "Cache the old energy and variables" (lines 67-70): `Eprev = E`, push a
clone of the mixed variable, and (`ifTau`) of the auxiliary variable. -/
def cacheVars (p : ScfParams) (s : ScfState) : ScfState :=
  { s with
    Eprev := s.E,
    pastVariables_n := s.pastVariables_n ++ [variableOf p.mixedVariable s.ev],
    pastVariables_tau :=
      if p.needsTau then s.pastVariables_tau ++ [varTauOf p.mixedVariable s.ev]
      else s.pastVariables_tau }

/-- One iteration of the SCF cycle (loop body, lines 57-107).  `solve` is the
external inner eigensolver together with the energy evaluation (the
`BandMinimizer` sweep over states plus `elecEnergyAndGrad`, lines 73-85),
returning the updated electronic variables and the new total energy;
`recompute` is `ElecVars::EdensityAndVscloc` (line 105), run only when
densities are mixed; `diag` is the eigensolver oracle of `mixDIIS`. -/
def scfStep (p : ScfParams) (solve : ℕ → ElecVars → ElecVars × ℚ)
    (recompute : ElecVars → ElecVars)
    (diag : ℕ → (ℕ → ℕ → ℚ) → (ℕ → ℕ → ℚ) × (ℕ → ℚ))
    (k : ℕ) (s : ScfState) : ScfState :=
  let s1 := cacheVars p (clearIfFull p s)
  let sol := solve k s1.ev
  let s2 : ScfState := { s1 with ev := sol.1, E := sol.2 }
  if |s2.E - s2.Eprev| < p.energyDiffThreshold then
    { s2 with converged := true }
  else
    let s3 : ScfState :=
      match p.vectorExtrapolationMethod with
      | ExtrapMethod.plainMixing =>
          let ev' := mixPlain p.needsTau p.mixedVariable s2.ev
            (s2.pastVariables_n.getLastD []) (s2.pastVariables_tau.getLastD [])
            p.mixFraction
          { s2 with ev := ev' }
      | ExtrapMethod.DIIS =>
          let r := mixDIIS p.history p.needsTau p.mixedVariable p.mixFraction p.dV
            diag s2.ev s2.pastVariables_n s2.pastVariables_tau s2.pastResiduals
            s2.overlap
          { s2 with ev := r.1, pastResiduals := r.2.1, overlap := r.2.2.1 }
    if p.mixedVariable = MixedVariable.density then
      { s3 with ev := recompute s3.ev }
    else s3

/-- The SCF cycle driver: runs `scfStep` with counter `k` while fuel (the
remaining iteration budget) lasts, breaking as soon as a step reports
convergence.  Returns the final state and the number of iterations used. -/
def scfRunAux (p : ScfParams) (solve : ℕ → ElecVars → ElecVars × ℚ)
    (recompute : ElecVars → ElecVars)
    (diag : ℕ → (ℕ → ℕ → ℚ) → (ℕ → ℕ → ℚ) × (ℕ → ℚ)) :
    ℕ → ℕ → ScfState → ScfState × ℕ
  | 0, k, s => (s, k)
  | fuel + 1, k, s =>
      let s' := scfStep p solve recompute diag k s
      if s'.converged then (s', k + 1)
      else scfRunAux p solve recompute diag fuel (k + 1) s'

/-- `SCF::minimize` (lines 31-109): the `for(scfCounter = 0; scfCounter <
nIterations; ...)` loop from the freshly initialized state. -/
def scfMinimize (p : ScfParams) (solve : ℕ → ElecVars → ElecVars × ℚ)
    (recompute : ElecVars → ElecVars)
    (diag : ℕ → (ℕ → ℕ → ℚ) → (ℕ → ℕ → ℚ) × (ℕ → ℚ))
    (ev0 : ElecVars) (Einit : ℚ) (M0 : ℕ → ℕ → ℚ) : ScfState × ℕ :=
  scfRunAux p solve recompute diag p.nIterations 0 (initState ev0 Einit M0)

/-! ### Shape bookkeeping and pointwise evaluation lemmas -/

/-- Shape equality of two collections: same channel count and channel-wise
equal sample counts (the `FieldSet` shape invariant of spec section 3). -/
def sameShape : DataRptrCollection → DataRptrCollection → Bool
  | [], [] => true
  | f :: a, g :: b => f.length == g.length && sameShape a b
  | _ :: _, [] => false
  | [], _ :: _ => false

lemma sameShape_refl : ∀ (a : DataRptrCollection), sameShape a a = true
  | [] => rfl
  | _ :: a => by simp [sameShape, sameShape_refl a]

lemma sameShape_symm : ∀ (a b : DataRptrCollection),
    sameShape a b = true → sameShape b a = true
  | [], [], _ => rfl
  | _ :: _, [], h => by simp [sameShape] at h
  | [], _ :: _, h => by simp [sameShape] at h
  | _ :: a, _ :: b, h => by
      simp [sameShape] at h ⊢
      exact ⟨h.1.symm, sameShape_symm a b h.2⟩

lemma sameShape_trans : ∀ (a b c : DataRptrCollection),
    sameShape a b = true → sameShape b c = true → sameShape a c = true
  | [], [], [], _, _ => rfl
  | [], [], _ :: _, _, h2 => by simp [sameShape] at h2
  | _ :: _, [], _, h1, _ => by simp [sameShape] at h1
  | [], _ :: _, _, h1, _ => by simp [sameShape] at h1
  | _ :: _, _ :: _, [], _, h2 => by simp [sameShape] at h2
  | _ :: a, _ :: b, _ :: c, h1, h2 => by
      simp [sameShape] at h1 h2 ⊢
      exact ⟨h1.1.trans h2.1, sameShape_trans a b c h1.2 h2.2⟩

lemma sameShape_length : ∀ (a b : DataRptrCollection),
    sameShape a b = true → a.length = b.length
  | [], [], _ => rfl
  | _ :: _, [], h => by simp [sameShape] at h
  | [], _ :: _, h => by simp [sameShape] at h
  | _ :: a, _ :: b, h => by
      simp [sameShape] at h
      simp [sameShape_length a b h.2]

lemma sameShape_getD_length : ∀ (a b : DataRptrCollection),
    sameShape a b = true → ∀ s, (a.getD s []).length = (b.getD s []).length
  | [], [], _, s => rfl
  | _ :: _, [], h, _ => by simp [sameShape] at h
  | [], _ :: _, h, _ => by simp [sameShape] at h
  | _ :: a, _ :: b, h, 0 => by
      simp [sameShape] at h
      simpa using h.1
  | _ :: a, _ :: b, h, s + 1 => by
      simp [sameShape] at h
      simpa using sameShape_getD_length a b h.2 s

lemma getD_nil_default {i : ℕ} : ([] : DataRptr).getD i 0 = 0 := by
  simp [List.getD]

lemma axpyField_getD (a : ℚ) : ∀ (x y : DataRptr), x.length = y.length →
    ∀ i, (axpyField a x y).getD i 0 = y.getD i 0 + a * x.getD i 0
  | [], [], _, i => by simp [axpyField, List.getD]
  | [], _ :: _, h, _ => by simp at h
  | _ :: _, [], h, _ => by simp at h
  | x :: xs, y :: ys, h, 0 => by simp [axpyField, List.getD]
  | x :: xs, y :: ys, h, i + 1 => by
      simp only [List.length_cons, Nat.succ.injEq] at h
      simpa [axpyField, List.getD] using axpyField_getD a xs ys h i

lemma axpyField_length (a : ℚ) (x y : DataRptr) (h : x.length = y.length) :
    (axpyField a x y).length = y.length := by
  simp [axpyField, h]

lemma axpyColl_getD (a : ℚ) : ∀ (x y : DataRptrCollection),
    sameShape x y = true → ∀ s i,
    ((axpyColl a x y).getD s []).getD i 0
      = (y.getD s []).getD i 0 + a * (x.getD s []).getD i 0
  | [], [], _, s, i => by simp [axpyColl, List.getD]
  | _ :: _, [], h, _, _ => by simp [sameShape] at h
  | [], _ :: _, h, _, _ => by simp [sameShape] at h
  | x :: xs, y :: ys, h, 0, i => by
      simp [sameShape] at h
      simpa [axpyColl, List.getD] using axpyField_getD a x y h.1 i
  | x :: xs, y :: ys, h, s + 1, i => by
      simp [sameShape] at h
      simpa [axpyColl, List.getD] using axpyColl_getD a xs ys h.2 s i

lemma sameShape_axpyColl (a : ℚ) : ∀ (x y : DataRptrCollection),
    sameShape x y = true → sameShape (axpyColl a x y) y = true
  | [], [], _ => rfl
  | _ :: _, [], h => by simp [sameShape] at h
  | [], _ :: _, h => by simp [sameShape] at h
  | x :: xs, y :: ys, h => by
      simp [sameShape] at h ⊢
      exact ⟨axpyField_length a x y h.1, sameShape_axpyColl a xs ys h.2⟩

lemma zeroField_getD : ∀ (f : DataRptr) (i : ℕ),
    (f.map (fun _ => (0 : ℚ))).getD i 0 = 0
  | [], i => by simp [List.getD]
  | _ :: f, 0 => by simp [List.getD]
  | _ :: f, i + 1 => by simp [List.getD]

lemma zeroColl_getD : ∀ (v : DataRptrCollection) (s i : ℕ),
    ((zeroColl v).getD s []).getD i 0 = 0
  | [], s, i => by simp [zeroColl, List.getD]
  | f :: v, 0, i => by simp [zeroColl, List.getD]
  | f :: v, s + 1, i => by simpa [zeroColl, List.getD] using zeroColl_getD v s i

lemma sameShape_zeroColl : ∀ (v : DataRptrCollection), sameShape (zeroColl v) v = true
  | [] => rfl
  | f :: v => by
      have h := sameShape_zeroColl v
      simp [zeroColl, sameShape] at h ⊢
      exact h

lemma diisAccum_sameShape (w : ℕ → ℚ) (hist : List DataRptrCollection) :
    ∀ (m : ℕ) (acc : DataRptrCollection),
    (∀ j, j < m → sameShape (hist.getD j []) acc = true) →
    sameShape (diisAccum w hist m acc) acc = true := by
  intro m
  induction m with
  | zero => intro acc _; exact sameShape_refl acc
  | succ m ih =>
      intro acc h
      have hm : sameShape (hist.getD m []) acc = true := h m (Nat.lt_succ_self m)
      have hprev : sameShape (diisAccum w hist m acc) acc = true :=
        ih acc (fun j hj => h j (Nat.lt_succ_of_lt hj))
      have hx : sameShape (hist.getD m []) (diisAccum w hist m acc) = true :=
        sameShape_trans _ _ _ hm (sameShape_symm _ _ hprev)
      simpa [diisAccum] using
        sameShape_trans _ _ _ (sameShape_axpyColl (w m) _ _ hx) hprev

lemma diisAccum_getD (w : ℕ → ℚ) (hist : List DataRptrCollection) :
    ∀ (m : ℕ) (acc : DataRptrCollection),
    (∀ j, j < m → sameShape (hist.getD j []) acc = true) →
    ∀ s i, ((diisAccum w hist m acc).getD s []).getD i 0
      = (acc.getD s []).getD i 0
        + ∑ j in Finset.range m, w j * ((hist.getD j []).getD s []).getD i 0 := by
  intro m
  induction m with
  | zero => intro acc _ s i; simp [diisAccum]
  | succ m ih =>
      intro acc h s i
      have hm : sameShape (hist.getD m []) acc = true := h m (Nat.lt_succ_self m)
      have hprev : sameShape (diisAccum w hist m acc) acc = true :=
        diisAccum_sameShape w hist m acc (fun j hj => h j (Nat.lt_succ_of_lt hj))
      have hx : sameShape (hist.getD m []) (diisAccum w hist m acc) = true :=
        sameShape_trans _ _ _ hm (sameShape_symm _ _ hprev)
      have step := axpyColl_getD (w m) (hist.getD m []) (diisAccum w hist m acc) hx s i
      have prev := ih acc (fun j hj => h j (Nat.lt_succ_of_lt hj)) s i
      simp only [diisAccum]
      rw [step, prev, Finset.sum_range_succ]
      ring

lemma getLastD_concat (x : DataRptrCollection) :
    ∀ (l : List DataRptrCollection), (l ++ [x]).getLastD [] = x
  | [] => rfl
  | y :: l => by
      rw [List.cons_append]
      cases h : l ++ [x] with
      | nil => exact absurd h (by simp)
      | cons z zs => simp [List.getLastD, ← h, getLastD_concat x l]

/-! ### Overlap matrix: characterization of the incremental update -/

lemma updateOverlapAux_eq (dV : ℚ) (rs : List DataRptrCollection) (ndim : ℕ) :
    ∀ (m : ℕ) (M : ℕ → ℕ → ℚ) (i j : ℕ),
    updateOverlapAux dV rs ndim m M i j =
      if j = ndim - 1 ∧ i < m then
        overlapResiduals dV (rs.getD i []) (rs.getLastD [])
      else if i = ndim - 1 ∧ j < m ∧ j ≠ ndim - 1 then
        overlapResiduals dV (rs.getD j []) (rs.getLastD [])
      else M i j := by
  intro m
  induction m with
  | zero => intro M i j; simp [updateOverlapAux]
  | succ m ih =>
      intro M i j
      simp only [updateOverlapAux, ite_apply, setEntry]
      rw [ih]
      by_cases hm : m = ndim - 1
      · rw [if_neg (not_not_intro hm)]
        by_cases hA : i = m ∧ j = ndim - 1
        · rw [if_pos hA, if_pos ⟨hA.2, by omega⟩, hA.1]
        · rw [if_neg hA]
          by_cases hB : j = ndim - 1 ∧ i < m
          · rw [if_pos hB, if_pos ⟨hB.1, by omega⟩]
          · rw [if_neg hB]
            by_cases hC : j = ndim - 1 ∧ i < m + 1
            · exfalso; omega
            · rw [if_neg hC]
              by_cases hD : i = ndim - 1 ∧ j < m ∧ j ≠ ndim - 1
              · rw [if_pos hD, if_pos ⟨hD.1, by omega, hD.2.2⟩]
              · rw [if_neg hD]
                by_cases hE : i = ndim - 1 ∧ j < m + 1 ∧ j ≠ ndim - 1
                · exfalso; omega
                · rw [if_neg hE]
      · rw [if_pos hm]
        by_cases h0 : i = ndim - 1 ∧ j = m
        · rcases h0 with ⟨h0i, h0j⟩
          rw [if_pos ⟨h0i, h0j⟩, if_neg (by omega : ¬(j = ndim - 1 ∧ i < m + 1)),
            if_pos ⟨h0i, by omega, by omega⟩, h0j]
        · rw [if_neg h0]
          by_cases h1 : i = m ∧ j = ndim - 1
          · rw [if_pos h1, if_pos ⟨h1.2, by omega⟩, h1.1]
          · rw [if_neg h1]
            by_cases hB : j = ndim - 1 ∧ i < m
            · rw [if_pos hB, if_pos ⟨hB.1, by omega⟩]
            · rw [if_neg hB]
              by_cases hC : j = ndim - 1 ∧ i < m + 1
              · exfalso; omega
              · rw [if_neg hC]
                by_cases hD : i = ndim - 1 ∧ j < m ∧ j ≠ ndim - 1
                · rw [if_pos hD, if_pos ⟨hD.1, by omega, hD.2.2⟩]
                · rw [if_neg hD]
                  by_cases hE : i = ndim - 1 ∧ j < m + 1 ∧ j ≠ ndim - 1
                  · exfalso; omega
                  · rw [if_neg hE]

/-- Closed form of one incremental overlap update: only the newest row and
column (index `rs.length - 1`) are (re)computed; every other entry is read
back unchanged. -/
lemma updateOverlap_eq (dV : ℚ) (M : ℕ → ℕ → ℚ) (rs : List DataRptrCollection)
    (i j : ℕ) :
    updateOverlap dV M rs i j =
      if j = rs.length - 1 ∧ i < rs.length then
        overlapResiduals dV (rs.getD i []) (rs.getLastD [])
      else if i = rs.length - 1 ∧ j < rs.length ∧ j ≠ rs.length - 1 then
        overlapResiduals dV (rs.getD j []) (rs.getLastD [])
      else M i j :=
  updateOverlapAux_eq dV rs rs.length rs.length M i j

lemma fieldMul_comm (a b : DataRptr) : fieldMul a b = fieldMul b a := by
  unfold fieldMul
  exact List.zipWith_comm_of_comm (· * ·) mul_comm a b

lemma overlapResiduals_comm (dV : ℚ) (r1 r2 : DataRptrCollection)
    (h : r1.length = r2.length) :
    overlapResiduals dV r1 r2 = overlapResiduals dV r2 r1 := by
  unfold overlapResiduals
  rw [fieldMul_comm (r1.getD 0 []) (r2.getD 0 []),
    fieldMul_comm (r1.getD 1 []) (r2.getD 1 []), h]

lemma sum_fieldMul_self_nonneg : ∀ (f : DataRptr), 0 ≤ (fieldMul f f).sum
  | [] => by simp [fieldMul]
  | x :: xs => by
      have ih := sum_fieldMul_self_nonneg xs
      simpa [fieldMul] using add_nonneg (mul_self_nonneg x) ih

lemma overlapResiduals_self_nonneg (dV : ℚ) (r : DataRptrCollection)
    (h : 0 ≤ dV) : 0 ≤ overlapResiduals dV r r := by
  unfold overlapResiduals integral
  have h0 := mul_nonneg h (sum_fieldMul_self_nonneg (r.getD 0 []))
  have h1 := mul_nonneg h (sum_fieldMul_self_nonneg (r.getD 1 []))
  refine add_nonneg h0 ?_
  split_ifs
  · exact h1
  · exact le_refl 0

lemma getD_take {α : Type} (d : α) : ∀ (l : List α) (n i : ℕ), i < n →
    (l.take n).getD i d = l.getD i d
  | [], _, _, _ => by simp
  | _ :: _, 0, _, h => absurd h (by omega)
  | _ :: _, n + 1, 0, _ => by simp [List.getD]
  | _ :: xs, n + 1, i + 1, h => by
      simpa [List.getD] using getD_take d xs n i (by omega)

lemma getLastD_take (l : List DataRptrCollection) (k : ℕ) (hk : k < l.length) :
    (l.take (k + 1)).getLastD [] = l.getD k [] := by
  rw [List.take_succ, List.getElem?_eq_getElem hk, Option.toList_some,
    getLastD_concat _ _]
  exact (List.getD_eq_getElem l [] hk).symm

/-- The valid block built up over an epoch of successive appends holds the
pairwise residual overlaps. -/
lemma overlapRunAux_valid (dV : ℚ) (M0 : ℕ → ℕ → ℚ)
    (rs : List DataRptrCollection)
    (hch : ∀ a b, a < rs.length → b < rs.length →
      (rs.getD a []).length = (rs.getD b []).length) :
    ∀ k, k ≤ rs.length → ∀ i j, i < k → j < k →
      overlapRunAux dV M0 rs k i j
        = overlapResiduals dV (rs.getD i []) (rs.getD j []) := by
  intro k
  induction k with
  | zero => intro _ i j hi hj; omega
  | succ k ih =>
      intro hk i j hi hj
      have hlen : (rs.take (k + 1)).length = k + 1 := by
        rw [List.length_take]; omega
      simp only [overlapRunAux]
      rw [updateOverlap_eq, hlen]
      by_cases hj' : j = k
      · rw [if_pos ⟨by omega, by omega⟩,
          getD_take [] rs (k + 1) i (by omega), getLastD_take rs k (by omega), hj']
      · by_cases hi' : i = k
        · rw [if_neg (by omega), if_pos ⟨by omega, by omega, by omega⟩,
            getD_take [] rs (k + 1) j (by omega), getLastD_take rs k (by omega), hi']
          exact overlapResiduals_comm dV _ _ (hch j k (by omega) (by omega))
        · rw [if_neg (by omega), if_neg (by omega)]
          exact ih (by omega) i j (by omega) (by omega)

/-! ### mixPlain: projection and pointwise lemmas -/

lemma variableOf_setVar (mv : MixedVariable) (ev : ElecVars)
    (v : DataRptrCollection) : variableOf mv (setVar mv ev v) = v := by
  cases mv <;> rfl

lemma variableOf_updateTau (mv : MixedVariable) (e : ElecVars)
    (t : DataRptrCollection) : variableOf mv { e with tau := t } = variableOf mv e := by
  cases mv <;> rfl

lemma tau_setVar (mv : MixedVariable) (ev : ElecVars) (v : DataRptrCollection) :
    (setVar mv ev v).tau = ev.tau := by
  cases mv <;> rfl

lemma Vtau_setVar (mv : MixedVariable) (ev : ElecVars) (v : DataRptrCollection) :
    (setVar mv ev v).Vtau = ev.Vtau := by
  cases mv <;> rfl

lemma mixPlain_variable (needsTau : Bool) (mv : MixedVariable) (ev : ElecVars)
    (pn pt : DataRptrCollection) (α : ℚ) :
    variableOf mv (mixPlain needsTau mv ev pn pt α)
      = mixColl α (variableOf mv ev) pn := by
  unfold mixPlain
  split_ifs <;> simp [variableOf_setVar, variableOf_updateTau]

lemma mixPlain_tau_true (mv : MixedVariable) (ev : ElecVars)
    (pn pt : DataRptrCollection) (α : ℚ) :
    (mixPlain true mv ev pn pt α).tau = mixColl α (varTauOf mv ev) pt := by
  unfold mixPlain
  simp

lemma mixPlain_tau_false (mv : MixedVariable) (ev : ElecVars)
    (pn pt : DataRptrCollection) (α : ℚ) :
    (mixPlain false mv ev pn pt α).tau = ev.tau := by
  unfold mixPlain
  simp [tau_setVar]

lemma mixPlain_Vtau (needsTau : Bool) (mv : MixedVariable) (ev : ElecVars)
    (pn pt : DataRptrCollection) (α : ℚ) :
    (mixPlain needsTau mv ev pn pt α).Vtau = ev.Vtau := by
  unfold mixPlain
  split_ifs <;> simp [Vtau_setVar]

lemma mixField_getD (α : ℚ) : ∀ (x y : DataRptr), x.length = y.length →
    ∀ i, (mixField α x y).getD i 0 = α * x.getD i 0 + (1 - α) * y.getD i 0
  | [], [], _, i => by simp [mixField, List.getD]
  | [], _ :: _, h, _ => by simp at h
  | _ :: _, [], h, _ => by simp at h
  | x :: xs, y :: ys, h, 0 => by simp [mixField, mixSample, List.getD]
  | x :: xs, y :: ys, h, i + 1 => by
      simp only [List.length_cons, Nat.succ.injEq] at h
      simpa [mixField, List.getD] using mixField_getD α xs ys h i

lemma mixColl_getD (α : ℚ) : ∀ (var prev : DataRptrCollection),
    sameShape var prev = true → ∀ s i,
    ((mixColl α var prev).getD s []).getD i 0
      = α * (var.getD s []).getD i 0 + (1 - α) * (prev.getD s []).getD i 0
  | [], [], _, s, i => by simp [mixColl, List.getD]
  | _ :: _, [], h, _, _ => by simp [sameShape] at h
  | [], _ :: _, h, _, _ => by simp [sameShape] at h
  | x :: xs, y :: ys, h, 0, i => by
      simp [sameShape] at h
      simpa [mixColl, List.getD] using mixField_getD α x y h.1 i
  | x :: xs, y :: ys, h, s + 1, i => by
      simp [sameShape] at h
      simpa [mixColl, List.getD] using mixColl_getD α xs ys h.2 s i

lemma mixField_one : ∀ (x y : DataRptr), x.length = y.length → mixField 1 x y = x
  | [], [], _ => rfl
  | [], _ :: _, h => by simp at h
  | _ :: _, [], h => by simp at h
  | x :: xs, y :: ys, h => by
      have ih := mixField_one xs ys (by simpa using h)
      simp only [mixField, List.zipWith_cons_cons] at ih ⊢
      rw [show mixSample 1 x y = x by unfold mixSample; ring, ih]

lemma mixColl_one : ∀ (var prev : DataRptrCollection),
    sameShape var prev = true → mixColl 1 var prev = var
  | [], [], _ => rfl
  | _ :: _, [], h => by simp [sameShape] at h
  | [], _ :: _, h => by simp [sameShape] at h
  | x :: xs, y :: ys, h => by
      simp [sameShape] at h
      have ih := mixColl_one xs ys h.2
      simp only [mixColl, List.zipWith_cons_cons] at ih ⊢
      rw [mixField_one x y h.1, ih]

/-! ### mixDIIS: branch characterizations -/

lemma variableOf_setVarTau (mv : MixedVariable) (e : ElecVars)
    (t : DataRptrCollection) : variableOf mv (setVarTau mv e t) = variableOf mv e := by
  cases mv <;> rfl

lemma mixDIIS_fallback_eq (p_history : ℕ) (needsTau : Bool) (mv : MixedVariable)
    (mixFraction dV : ℚ)
    (diag : ℕ → (ℕ → ℕ → ℚ) → (ℕ → ℕ → ℚ) × (ℕ → ℚ))
    (ev : ElecVars) (pvn pvt prs : List DataRptrCollection)
    (overlap : ℕ → ℕ → ℚ)
    (h : prs.length + 1 ≠ p_history) :
    mixDIIS p_history needsTau mv mixFraction dV diag ev pvn pvt prs overlap
      = (mixPlain needsTau mv ev (pvn.getLastD []) (pvt.getLastD []) mixFraction,
         prs ++ [diisResidual mv ev pvn],
         updateOverlap dV overlap (prs ++ [diisResidual mv ev pvn]),
         diisResidual mv ev pvn) := by
  have hlen : (prs ++ [diisResidual mv ev pvn]).length = prs.length + 1 := by simp
  simp only [mixDIIS, hlen]
  rw [if_pos h]

lemma mixDIIS_full_var (p_history : ℕ) (needsTau : Bool) (mv : MixedVariable)
    (mixFraction dV : ℚ)
    (diag : ℕ → (ℕ → ℕ → ℚ) → (ℕ → ℕ → ℚ) × (ℕ → ℚ))
    (ev : ElecVars) (pvn pvt prs : List DataRptrCollection)
    (overlap : ℕ → ℕ → ℚ)
    (hfull : prs.length + 1 = p_history) :
    variableOf mv
        (mixDIIS p_history needsTau mv mixFraction dV diag ev pvn pvt prs overlap).1
      = diisCombine
          (fun j => (diag (prs.length + 1)
            (validBlock (prs.length + 1)
              (updateOverlap dV overlap (prs ++ [diisResidual mv ev pvn])))).1 j 0)
          (prs.length + 1) (variableOf mv ev) pvn := by
  have hlen : (prs ++ [diisResidual mv ev pvn]).length = prs.length + 1 := by simp
  simp only [mixDIIS, hlen]
  rw [if_neg (not_not_intro hfull)]
  cases needsTau <;>
    simp [variableOf_setVarTau, variableOf_setVar]

lemma mixDIIS_full_res (p_history : ℕ) (needsTau : Bool) (mv : MixedVariable)
    (mixFraction dV : ℚ)
    (diag : ℕ → (ℕ → ℕ → ℚ) → (ℕ → ℕ → ℚ) × (ℕ → ℚ))
    (ev : ElecVars) (pvn pvt prs : List DataRptrCollection)
    (overlap : ℕ → ℕ → ℚ)
    (hfull : prs.length + 1 = p_history) :
    (mixDIIS p_history needsTau mv mixFraction dV diag ev pvn pvt prs overlap).2.2.2
      = diisCombine
          (fun j => (diag (prs.length + 1)
            (validBlock (prs.length + 1)
              (updateOverlap dV overlap (prs ++ [diisResidual mv ev pvn])))).1 j 0)
          (prs.length + 1) (diisResidual mv ev pvn)
          (prs ++ [diisResidual mv ev pvn]) := by
  have hlen : (prs ++ [diisResidual mv ev pvn]).length = prs.length + 1 := by simp
  simp only [mixDIIS, hlen]
  rw [if_neg (not_not_intro hfull)]

lemma diisCombine_getD (c : ℕ → ℚ) (n : ℕ) (v0 : DataRptrCollection)
    (hist : List DataRptrCollection)
    (hsh : ∀ j, j < n → sameShape (hist.getD j []) v0 = true) (s i : ℕ) :
    ((diisCombine c n v0 hist).getD s []).getD i 0
      = ∑ j in Finset.range n,
          (c j / ∑ l in Finset.range n, c l) * ((hist.getD j []).getD s []).getD i 0 := by
  unfold diisCombine
  have hsh' : ∀ j, j < n → sameShape (hist.getD j []) (zeroColl v0) = true :=
    fun j hj => sameShape_trans _ _ _ (hsh j hj)
      (sameShape_symm _ _ (sameShape_zeroColl v0))
  rw [diisAccum_getD _ _ n (zeroColl v0) hsh' s i, zeroColl_getD, zero_add]

/-! ### Claim theorems -/

/-- C7: after each incremental update of the residual-overlap matrix during
an epoch of `k ≤ n` appends, the valid `k × k` block is symmetric, its
`(i, j)` entry is the inner product `overlapResiduals` of residuals `i` and
`j`, each diagonal entry is the residual's self inner product and is
non-negative (for a non-negative integration weight), and a single
`updateOverlap` writes only the newest row and column (index
`rs'.length - 1`), leaving every other entry untouched. -/
theorem C7_overlap_incremental_invariant (dV : ℚ) (M0 : ℕ → ℕ → ℚ)
    (rs : List DataRptrCollection)
    (hdV : 0 ≤ dV)
    (hch : ∀ a, a < rs.length → ∀ b, b < rs.length →
      (rs.getD a []).length = (rs.getD b []).length) :
    (∀ k, k ≤ rs.length → ∀ i j, i < k → j < k →
       overlapRunAux dV M0 rs k i j
         = overlapResiduals dV (rs.getD i []) (rs.getD j []) ∧
       overlapRunAux dV M0 rs k i j = overlapRunAux dV M0 rs k j i ∧
       overlapRunAux dV M0 rs k i i
         = overlapResiduals dV (rs.getD i []) (rs.getD i []) ∧
       0 ≤ overlapRunAux dV M0 rs k i i) ∧
    (∀ (M : ℕ → ℕ → ℚ) (rs' : List DataRptrCollection) (i j : ℕ),
       i ≠ rs'.length - 1 → j ≠ rs'.length - 1 →
       updateOverlap dV M rs' i j = M i j) := by
  have hch' : ∀ a b, a < rs.length → b < rs.length →
      (rs.getD a []).length = (rs.getD b []).length :=
    fun a b ha hb => hch a ha b hb
  constructor
  · intro k hk i j hi hj
    have hij := overlapRunAux_valid dV M0 rs hch' k hk i j hi hj
    have hji := overlapRunAux_valid dV M0 rs hch' k hk j i hj hi
    have hii := overlapRunAux_valid dV M0 rs hch' k hk i i hi hi
    refine ⟨hij, ?_, hii, ?_⟩
    · rw [hij, hji]
      exact overlapResiduals_comm dV _ _ (hch' i j (by omega) (by omega))
    · rw [hii]
      exact overlapResiduals_self_nonneg dV _ hdV
  · intro M rs' i j hi hj
    rw [updateOverlap_eq, if_neg (by omega), if_neg (by omega)]

/-- Witness for C7 at a concrete two-residual epoch. -/
theorem C7_overlap_incremental_invariant_witness :
    (0 : ℚ) ≤ 1 ∧
    overlapRunAux 1 (fun _ _ => 0) [[[2]], [[3]]] 2 0 1
      = overlapResiduals 1 [[2]] [[3]] := by
  refine ⟨by norm_num, ?_⟩
  have h := C7_overlap_incremental_invariant 1 (fun _ _ => 0) [[[2]], [[3]]]
    (by norm_num) (by decide)
  exact (h.1 2 (by decide) 0 1 (by decide) (by decide)).1

/-- C8: `mixPlain` replaces the mixed variable by
`α·new + (1-α)·old` sample-wise in every channel, mixes the auxiliary
KE-density field exactly when the capability is enabled (leaving `tau`
untouched otherwise), and with `α = 1` returns the new field exactly. -/
theorem C8_mixPlain_convex_combination (needsTau : Bool) (mv : MixedVariable)
    (ev : ElecVars) (prev_n prev_tau : DataRptrCollection) (α : ℚ)
    (hn : sameShape (variableOf mv ev) prev_n = true)
    (ht : needsTau = true → sameShape (varTauOf mv ev) prev_tau = true) :
    (∀ s i,
      ((variableOf mv (mixPlain needsTau mv ev prev_n prev_tau α)).getD s []).getD i 0
        = α * ((variableOf mv ev).getD s []).getD i 0
          + (1 - α) * (prev_n.getD s []).getD i 0) ∧
    (needsTau = true → ∀ s i,
      ((mixPlain needsTau mv ev prev_n prev_tau α).tau.getD s []).getD i 0
        = α * ((varTauOf mv ev).getD s []).getD i 0
          + (1 - α) * (prev_tau.getD s []).getD i 0) ∧
    (needsTau = false → (mixPlain needsTau mv ev prev_n prev_tau α).tau = ev.tau) ∧
    (α = 1 → variableOf mv (mixPlain needsTau mv ev prev_n prev_tau α)
      = variableOf mv ev) := by
  refine ⟨?_, ?_, ?_, ?_⟩
  · intro s i
    rw [mixPlain_variable]
    exact mixColl_getD α _ _ hn s i
  · intro hTau s i
    subst hTau
    rw [mixPlain_tau_true]
    exact mixColl_getD α _ _ (ht rfl) s i
  · intro hTau
    subst hTau
    exact mixPlain_tau_false mv ev prev_n prev_tau α
  · intro hα
    subst hα
    rw [mixPlain_variable]
    exact mixColl_one _ _ hn

/-- Witness for C8 at a concrete state (density mixing, auxiliary enabled). -/
theorem C8_mixPlain_convex_combination_witness :
    sameShape [[4]] [[0]] = true ∧
    ((variableOf MixedVariable.density
        (mixPlain true MixedVariable.density
          { n := [[4]], tau := [[6]], Vscloc := [], Vtau := [] }
          [[0]] [[2]] (1/2))).getD 0 []).getD 0 0
      = (1/2) * 4 + (1 - 1/2) * 0 := by
  refine ⟨by decide, ?_⟩
  have h := C8_mixPlain_convex_combination true MixedVariable.density
    { n := [[4]], tau := [[6]], Vscloc := [], Vtau := [] }
    [[0]] [[2]] (1/2) (by decide) (fun _ => by decide)
  have h0 := h.1 0 0
  simpa using h0

/-- C10: `mixPlain` never writes `Vtau`; whenever the auxiliary capability is
enabled it writes the mixed auxiliary result into `e.eVars.tau`, reading the
auxiliary input through `variable_tau` (which is `Vtau` when potentials are
mixed); hence under potential mixing `Vtau` is unchanged while `tau` is
overwritten with the mix of `Vtau` and the cached previous value (and the
density array `n` is untouched as well). -/
theorem C10_mixPlain_tau_frame (needsTau : Bool) (mv : MixedVariable)
    (ev : ElecVars) (prev_n prev_tau : DataRptrCollection) (α : ℚ) :
    (mixPlain needsTau mv ev prev_n prev_tau α).Vtau = ev.Vtau ∧
    (needsTau = true →
      (mixPlain needsTau mv ev prev_n prev_tau α).tau
        = mixColl α (varTauOf mv ev) prev_tau) ∧
    (mv = MixedVariable.potential → needsTau = true →
      (mixPlain needsTau mv ev prev_n prev_tau α).tau
        = mixColl α ev.Vtau prev_tau ∧
      (mixPlain needsTau mv ev prev_n prev_tau α).Vtau = ev.Vtau ∧
      (mixPlain needsTau mv ev prev_n prev_tau α).n = ev.n) := by
  refine ⟨mixPlain_Vtau needsTau mv ev prev_n prev_tau α, ?_, ?_⟩
  · intro hTau
    subst hTau
    exact mixPlain_tau_true mv ev prev_n prev_tau α
  · intro hmv hTau
    subst hmv
    subst hTau
    refine ⟨mixPlain_tau_true _ ev prev_n prev_tau α,
      mixPlain_Vtau _ _ ev prev_n prev_tau α, ?_⟩
    unfold mixPlain
    simp [setVar]

/-- Witness for C10 under potential mixing with the auxiliary enabled. -/
theorem C10_mixPlain_tau_frame_witness :
    (mixPlain true MixedVariable.potential
      { n := [[9]], tau := [[7]], Vscloc := [[4]], Vtau := [[2]] }
      [[0]] [[0]] (1/2)).Vtau = [[2]] ∧
    (mixPlain true MixedVariable.potential
      { n := [[9]], tau := [[7]], Vscloc := [[4]], Vtau := [[2]] }
      [[0]] [[0]] (1/2)).tau = mixColl (1/2) [[2]] [[0]] := by
  have h := C10_mixPlain_tau_frame true MixedVariable.potential
    { n := [[9]], tau := [[7]], Vscloc := [[4]], Vtau := [[2]] }
    [[0]] [[0]] (1/2)
  exact ⟨h.1, (h.2.2 rfl rfl).1⟩

/-- C6: when the history length after appending the new residual
(`ndim = prs.length + 1`) is still strictly below the configured depth,
`mixDIIS` returns the plain mix of the current variable with the most recent
snapshot (and the freshly appended residual history and overlap update), and
its result does not depend on the eigensolver oracle at all - the overlap
matrix is not diagonalized and no coefficient-weighted combination is
formed. -/
theorem C6_diis_not_full_plain_fallback (p_history : ℕ) (needsTau : Bool)
    (mv : MixedVariable) (mixFraction dV : ℚ)
    (diag diag2 : ℕ → (ℕ → ℕ → ℚ) → (ℕ → ℕ → ℚ) × (ℕ → ℚ))
    (ev : ElecVars) (pvn pvt prs : List DataRptrCollection)
    (overlap : ℕ → ℕ → ℚ)
    (h : prs.length + 1 < p_history) :
    mixDIIS p_history needsTau mv mixFraction dV diag ev pvn pvt prs overlap
      = (mixPlain needsTau mv ev (pvn.getLastD []) (pvt.getLastD []) mixFraction,
         prs ++ [diisResidual mv ev pvn],
         updateOverlap dV overlap (prs ++ [diisResidual mv ev pvn]),
         diisResidual mv ev pvn) ∧
    mixDIIS p_history needsTau mv mixFraction dV diag ev pvn pvt prs overlap
      = mixDIIS p_history needsTau mv mixFraction dV diag2 ev pvn pvt prs overlap := by
  have hne : prs.length + 1 ≠ p_history := by omega
  refine ⟨mixDIIS_fallback_eq _ _ _ _ _ _ _ _ _ _ _ hne, ?_⟩
  rw [mixDIIS_fallback_eq _ _ _ _ _ _ _ _ _ _ _ hne,
    mixDIIS_fallback_eq _ _ _ _ _ _ _ _ _ _ _ hne]

/-- Witness for C6: depth 2, empty residual history, two different
eigensolver oracles. -/
theorem C6_diis_not_full_plain_fallback_witness :
    ([] : List DataRptrCollection).length + 1 < 2 ∧
    mixDIIS 2 false MixedVariable.density (1/2) 1
        (fun _ _ => (fun _ _ => 0, fun _ => 0))
        { n := [[1]], tau := [], Vscloc := [], Vtau := [] } [[[0]]] [] []
        (fun _ _ => 0)
      = mixDIIS 2 false MixedVariable.density (1/2) 1
        (fun _ _ => (fun _ _ => 1, fun _ => 1))
        { n := [[1]], tau := [], Vscloc := [], Vtau := [] } [[[0]]] [] []
        (fun _ _ => 0) :=
  ⟨by decide,
    (C6_diis_not_full_plain_fallback 2 false MixedVariable.density (1/2) 1
      (fun _ _ => (fun _ _ => 0, fun _ => 0))
      (fun _ _ => (fun _ _ => 1, fun _ => 1))
      { n := [[1]], tau := [], Vscloc := [], Vtau := [] } [[[0]]] [] []
      (fun _ _ => 0) (by decide)).2⟩

/-- C5: in the full-history branch (`prs.length + 1 = H`), writing `c` for
column 0 of the eigensolver output on the valid overlap block and `norm` for
the sum of its entries, if `norm ≠ 0` then the normalized weights
`c j / norm` sum to exactly 1, and the returned mixed variable
(respectively the recombined residual) is, sample-wise, the weighted linear
combination of the `H` historical snapshots (respectively residuals). -/
theorem C5_diis_normalized_combination (p_history : ℕ) (needsTau : Bool)
    (mv : MixedVariable) (mixFraction dV : ℚ)
    (diag : ℕ → (ℕ → ℕ → ℚ) → (ℕ → ℕ → ℚ) × (ℕ → ℚ))
    (ev : ElecVars) (pvn pvt prs : List DataRptrCollection)
    (overlap : ℕ → ℕ → ℚ)
    (c : ℕ → ℚ)
    (hfull : prs.length + 1 = p_history)
    (hc : c = fun j => (diag (prs.length + 1)
      (validBlock (prs.length + 1)
        (updateOverlap dV overlap (prs ++ [diisResidual mv ev pvn])))).1 j 0)
    (hnorm : (∑ j in Finset.range p_history, c j) ≠ 0)
    (hshape : ∀ j, j < p_history →
      sameShape (pvn.getD j []) (variableOf mv ev) = true)
    (hrshape : ∀ j, j < p_history →
      sameShape ((prs ++ [diisResidual mv ev pvn]).getD j [])
        (diisResidual mv ev pvn) = true) :
    (∑ j in Finset.range p_history,
        c j / (∑ l in Finset.range p_history, c l)) = 1 ∧
    (∀ s i, ((variableOf mv
        (mixDIIS p_history needsTau mv mixFraction dV diag ev pvn pvt prs
          overlap).1).getD s []).getD i 0
      = ∑ j in Finset.range p_history,
          (c j / ∑ l in Finset.range p_history, c l)
            * ((pvn.getD j []).getD s []).getD i 0) ∧
    (∀ s i, (((mixDIIS p_history needsTau mv mixFraction dV diag ev pvn pvt prs
          overlap).2.2.2).getD s []).getD i 0
      = ∑ j in Finset.range p_history,
          (c j / ∑ l in Finset.range p_history, c l)
            * (((prs ++ [diisResidual mv ev pvn]).getD j []).getD s []).getD i 0) := by
  refine ⟨?_, ?_, ?_⟩
  · rw [← Finset.sum_div, div_self hnorm]
  · intro s i
    rw [mixDIIS_full_var _ _ _ _ _ _ _ _ _ _ _ hfull, ← hc, hfull]
    exact diisCombine_getD c p_history (variableOf mv ev) pvn hshape s i
  · intro s i
    rw [mixDIIS_full_res _ _ _ _ _ _ _ _ _ _ _ hfull, ← hc, hfull]
    exact diisCombine_getD c p_history (diisResidual mv ev pvn) _ hrshape s i

/-- Constant eigensolver oracle used by the C5 witness instance. -/
def diagW : ℕ → (ℕ → ℕ → ℚ) → (ℕ → ℕ → ℚ) × (ℕ → ℚ) :=
  fun _ _ => (fun _ _ => 1, fun _ => 0)

/-- Electronic variables of the C5 witness instance. -/
def evW : ElecVars := { n := [[5]], tau := [], Vscloc := [], Vtau := [] }

/-- Snapshot history of the C5 witness instance. -/
def pvnW : List DataRptrCollection := [[[1]], [[3]]]

/-- Residual history of the C5 witness instance. -/
def prsW : List DataRptrCollection := [[[2]]]

/-- Column-0 coefficients of the C5 witness instance. -/
def cW : ℕ → ℚ :=
  fun j => (diagW (prsW.length + 1)
    (validBlock (prsW.length + 1)
      (updateOverlap 1 (fun _ _ => 0)
        (prsW ++ [diisResidual MixedVariable.density evW pvnW])))).1 j 0

/-- Witness for C5 at a concrete depth-2 full-history instance. -/
theorem C5_diis_normalized_combination_witness :
    (∑ j in Finset.range 2, cW j) ≠ 0 ∧
    (∑ j in Finset.range 2, cW j / (∑ l in Finset.range 2, cW l)) = 1 := by
  have hnorm : (∑ j in Finset.range 2, cW j) ≠ 0 := by
    norm_num [cW, diagW, Finset.sum_range_succ]
  refine ⟨hnorm, ?_⟩
  exact (C5_diis_normalized_combination 2 false MixedVariable.density (1/2) 1
    diagW evW pvnW [] prsW (fun _ _ => 0) cW (by decide) rfl hnorm
    (by decide) (by decide)).1

/-- For a 1×1 matrix, the all-ones column with eigenvalue `M 0 0` is a valid
symmetric eigendecomposition in the sense of the spec contract. -/
lemma SpecDiagonalize_one (M : ℕ → ℕ → ℚ) :
    SpecDiagonalize 1 M (fun _ _ => 1) (fun _ => M 0 0) := by
  refine ⟨?_, ?_, ?_, ?_⟩
  · intro k hk i hi
    interval_cases k <;> interval_cases i <;> simp [Finset.sum_range_one]
  · intro k hk
    norm_num [Finset.sum_range_one]
  · intro k hk l hl hne
    interval_cases k <;> interval_cases l <;> simp_all
  · intro k hk l hl _
    interval_cases k <;> interval_cases l <;> simp

/-- A `SpecDiagonalize`-valid output for a 1×1 block has a nonzero
column-0 entry. -/
lemma SpecDiagonalize_one_entry_ne_zero (M V : ℕ → ℕ → ℚ) (eig : ℕ → ℚ)
    (h : SpecDiagonalize 1 M V eig) : V 0 0 ≠ 0 := by
  have h0 := h.2.1 0 (by norm_num)
  rw [Finset.sum_range_one] at h0
  exact mul_self_ne_zero.mp h0

/-- C3 (amended): with history depth `H = 1` the fallback never triggers -
after appending the residual the history length is `1 = H`, so `mixDIIS`
runs the full branch on the 1×1 overlap block; for any spec-valid
eigensolver output the normalized weight is exactly 1 and the returned mixed
variable equals the single stored snapshot (the pre-solve variable),
independently of the mixing fraction `α`. -/
theorem C3_h1_diis_returns_snapshot (needsTau : Bool) (mv : MixedVariable)
    (mixFraction dV : ℚ)
    (diag : ℕ → (ℕ → ℕ → ℚ) → (ℕ → ℕ → ℚ) × (ℕ → ℚ))
    (ev : ElecVars) (pvn pvt : List DataRptrCollection)
    (overlap : ℕ → ℕ → ℚ)
    (hdiag : SpecDiagonalize 1
      (validBlock 1 (updateOverlap dV overlap [diisResidual mv ev pvn]))
      (diag 1 (validBlock 1 (updateOverlap dV overlap
        [diisResidual mv ev pvn]))).1
      (diag 1 (validBlock 1 (updateOverlap dV overlap
        [diisResidual mv ev pvn]))).2)
    (hshape : sameShape (pvn.getD 0 []) (variableOf mv ev) = true) :
    ∀ s i, ((variableOf mv
        (mixDIIS 1 needsTau mv mixFraction dV diag ev pvn pvt []
          overlap).1).getD s []).getD i 0
      = ((pvn.getD 0 []).getD s []).getD i 0 := by
  intro s i
  have hfull : ([] : List DataRptrCollection).length + 1 = 1 := rfl
  rw [mixDIIS_full_var 1 needsTau mv mixFraction dV diag ev pvn pvt [] overlap hfull]
  simp only [List.nil_append, List.length_nil, Nat.zero_add]
  have hsh : ∀ j, j < 1 → sameShape (pvn.getD j []) (variableOf mv ev) = true := by
    intro j hj
    interval_cases j
    exact hshape
  rw [diisCombine_getD _ 1 (variableOf mv ev) pvn hsh s i]
  have hc0 : (diag 1 (validBlock 1 (updateOverlap dV overlap
      [diisResidual mv ev pvn]))).1 0 0 ≠ 0 :=
    SpecDiagonalize_one_entry_ne_zero _ _ _ hdiag
  rw [Finset.sum_range_one, Finset.sum_range_one, div_self hc0, one_mul]

/-- C3 counterexample instance: electronic variables. -/
def evC3 : ElecVars := { n := [[1]], tau := [], Vscloc := [], Vtau := [] }

/-- C3 counterexample instance: single stored snapshot. -/
def pvnC3 : List DataRptrCollection := [[[0]]]

/-- C3 counterexample instance: an eigensolver oracle that is spec-valid on
every 1×1 block. -/
def diagC3 : ℕ → (ℕ → ℕ → ℚ) → (ℕ → ℕ → ℚ) × (ℕ → ℚ) :=
  fun _ M => (fun _ _ => 1, fun _ => M 0 0)

/-- C3 counterexample: at history depth `H = 1` with a spec-valid
eigensolver output, one `mixDIIS` step does *not* equal one `mixPlain` step
with the same mixing fraction: the DIIS result is the old snapshot `[[0]]`
while plain mixing returns `[[1/2]]`. -/
theorem C3_counterexample_h1_not_plain :
    SpecDiagonalize 1
      (validBlock 1 (updateOverlap 1 (fun _ _ => 0)
        [diisResidual MixedVariable.density evC3 pvnC3]))
      (diagC3 1 (validBlock 1 (updateOverlap 1 (fun _ _ => 0)
        [diisResidual MixedVariable.density evC3 pvnC3]))).1
      (diagC3 1 (validBlock 1 (updateOverlap 1 (fun _ _ => 0)
        [diisResidual MixedVariable.density evC3 pvnC3]))).2 ∧
    variableOf MixedVariable.density
        (mixDIIS 1 false MixedVariable.density (1/2) 1 diagC3 evC3 pvnC3 [] []
          (fun _ _ => 0)).1
      ≠ variableOf MixedVariable.density
        (mixPlain false MixedVariable.density evC3 (pvnC3.getLastD [])
          (([] : List DataRptrCollection).getLastD []) (1/2)) := by
  constructor
  · exact SpecDiagonalize_one _
  · have h1 : variableOf MixedVariable.density
        (mixDIIS 1 false MixedVariable.density (1/2) 1 diagC3 evC3 pvnC3 [] []
          (fun _ _ => 0)).1 = [[0]] := by
      rw [mixDIIS_full_var 1 false MixedVariable.density (1/2) 1 diagC3 evC3
        pvnC3 [] [] (fun _ _ => 0) rfl]
      norm_num [diisCombine, diisAccum, diagC3, zeroColl, axpyColl, axpyField,
        evC3, pvnC3, variableOf, Finset.sum_range_one]
    have h2 : variableOf MixedVariable.density
        (mixPlain false MixedVariable.density evC3 (pvnC3.getLastD [])
          (([] : List DataRptrCollection).getLastD []) (1/2)) = [[1/2]] := by
      norm_num [mixPlain, setVar, variableOf, mixColl, mixField, mixSample,
        evC3, pvnC3, List.getLastD]
    rw [h1, h2]
    intro hEq
    have := List.head_eq_of_cons_eq hEq
    have := List.head_eq_of_cons_eq this
    norm_num at this

/-- Witness for the amended C3 theorem at the counterexample instance. -/
theorem C3_h1_diis_returns_snapshot_witness :
    sameShape (pvnC3.getD 0 []) (variableOf MixedVariable.density evC3) = true ∧
    ∀ s i, ((variableOf MixedVariable.density
        (mixDIIS 1 false MixedVariable.density (1/2) 1 diagC3 evC3 pvnC3 [] []
          (fun _ _ => 0)).1).getD s []).getD i 0
      = ((pvnC3.getD 0 []).getD s []).getD i 0 :=
  ⟨by decide,
    C3_h1_diis_returns_snapshot false MixedVariable.density (1/2) 1 diagC3
      evC3 pvnC3 [] (fun _ _ => 0) (SpecDiagonalize_one _) (by decide)⟩

/-- For the all-ones 3×3 overlap block (three identical unit-overlap
residuals), *every* spec-valid eigendecomposition puts a null vector of the
block in column 0 (the smallest eigenvalue is 0), and all null vectors of
the all-ones matrix have component sum 0.  Hence the DIIS normalization
constant vanishes identically. -/
lemma ones3_col0_sum_zero (M V : ℕ → ℕ → ℚ) (eig : ℕ → ℚ)
    (hM : ∀ i, i < 3 → ∀ j, j < 3 → M i j = 1)
    (hd : SpecDiagonalize 3 M V eig) :
    V 0 0 + V 1 0 + V 2 0 = 0 := by
  obtain ⟨heig, hnz, horth, hasc⟩ := hd
  have e00 := heig 0 (by norm_num) 0 (by norm_num)
  have e01 := heig 0 (by norm_num) 1 (by norm_num)
  have e02 := heig 0 (by norm_num) 2 (by norm_num)
  have nz0 := hnz 0 (by norm_num)
  simp only [Finset.sum_range_succ, Finset.sum_range_zero, zero_add]
    at e00 e01 e02 nz0
  rw [hM 0 (by norm_num) 0 (by norm_num), hM 0 (by norm_num) 1 (by norm_num),
    hM 0 (by norm_num) 2 (by norm_num)] at e00
  rw [hM 1 (by norm_num) 0 (by norm_num), hM 1 (by norm_num) 1 (by norm_num),
    hM 1 (by norm_num) 2 (by norm_num)] at e01
  rw [hM 2 (by norm_num) 0 (by norm_num), hM 2 (by norm_num) 1 (by norm_num),
    hM 2 (by norm_num) 2 (by norm_num)] at e02
  simp only [one_mul] at e00 e01 e02
  by_cases hl : eig 0 = 0
  · rw [hl, zero_mul] at e00
    exact e00
  · exfalso
    have ht01 : V 0 0 = V 1 0 := mul_left_cancel₀ hl (e00.symm.trans e01)
    have ht02 : V 0 0 = V 2 0 := mul_left_cancel₀ hl (e00.symm.trans e02)
    have htne : V 0 0 ≠ 0 := by
      intro h0
      apply nz0
      rw [← ht01, ← ht02, h0]
      ring
    have heig3 : eig 0 = 3 := by
      rw [← ht01, ← ht02] at e00
      have h3 : (3 : ℚ) * V 0 0 = eig 0 * V 0 0 := by linarith
      exact (mul_right_cancel₀ htne h3).symm
    have f0 := heig 1 (by norm_num) 0 (by norm_num)
    have f1 := heig 1 (by norm_num) 1 (by norm_num)
    have f2 := heig 1 (by norm_num) 2 (by norm_num)
    have nz1 := hnz 1 (by norm_num)
    simp only [Finset.sum_range_succ, Finset.sum_range_zero, zero_add]
      at f0 f1 f2 nz1
    rw [hM 0 (by norm_num) 0 (by norm_num), hM 0 (by norm_num) 1 (by norm_num),
      hM 0 (by norm_num) 2 (by norm_num)] at f0
    rw [hM 1 (by norm_num) 0 (by norm_num), hM 1 (by norm_num) 1 (by norm_num),
      hM 1 (by norm_num) 2 (by norm_num)] at f1
    rw [hM 2 (by norm_num) 0 (by norm_num), hM 2 (by norm_num) 1 (by norm_num),
      hM 2 (by norm_num) 2 (by norm_num)] at f2
    simp only [one_mul] at f0 f1 f2
    have hasc01 : eig 0 ≤ eig 1 := hasc 0 (by norm_num) 1 (by norm_num) (by norm_num)
    have hl1 : eig 1 ≠ 0 := by
      intro h
      rw [heig3, h] at hasc01
      norm_num at hasc01
    have hu01 : V 0 1 = V 1 1 := mul_left_cancel₀ hl1 (f0.symm.trans f1)
    have hu02 : V 0 1 = V 2 1 := mul_left_cancel₀ hl1 (f0.symm.trans f2)
    have hune : V 0 1 ≠ 0 := by
      intro h0
      apply nz1
      rw [← hu01, ← hu02, h0]
      ring
    have orth01 := horth 0 (by norm_num) 1 (by norm_num) (by norm_num)
    simp only [Finset.sum_range_succ, Finset.sum_range_zero, zero_add] at orth01
    rw [← ht01, ← ht02, ← hu01, ← hu02] at orth01
    have : V 0 0 * V 0 1 = 0 := by linarith
    exact mul_ne_zero htne hune this

/-- C2 instance: electronic variables (current mixed variable `[[6]]`). -/
def evC2 : ElecVars := { n := [[6]], tau := [], Vscloc := [], Vtau := [] }

/-- C2 instance: three identical snapshots `[[5]]`. -/
def pvnC2 : List DataRptrCollection := [[[5]], [[5]], [[5]]]

/-- C2 instance: the common residual `[[1]]`. -/
def rC2 : DataRptrCollection := [[1]]

/-- C2 instance: the residual history before the call (two identical
residuals). -/
def prsC2 : List DataRptrCollection := [rC2, rC2]

/-- C2 instance: overlap matrix as produced by the two earlier incremental
updates of the epoch. -/
def ovC2 : ℕ → ℕ → ℚ :=
  updateOverlap 1 (updateOverlap 1 (fun _ _ => 0) [rC2]) [rC2, rC2]

/-- At the C2 instance, the valid 3×3 overlap block after the in-call update
is the all-ones matrix. -/
lemma ovC2_block_all_ones :
    ∀ i, i < 3 → ∀ j, j < 3 →
      validBlock 3 (updateOverlap 1 ovC2
        (prsC2 ++ [diisResidual MixedVariable.density evC2 pvnC2])) i j = 1 := by
  intro i hi j hj
  interval_cases i <;> interval_cases j <;>
    norm_num [validBlock, updateOverlap_eq, ovC2, prsC2, rC2, evC2, pvnC2,
      diisResidual, axpyColl, axpyField, variableOf, overlapResiduals,
      integral, fieldMul, List.getD, List.getLastD]

/-- C2 (refuted; code bug): calling `mixDIIS` with a full history `H = 3` of
identical residuals reaches the coefficient-normalization path with a
rank-one (all-ones) overlap block; for *every* spec-valid eigensolver
output, the column-0 eigenvector sums to 0, so the normalization constant
`norm` is exactly 0 and the weights divide by zero (IEEE `inf`/`nan` in the
C++ source; `x / 0 = 0` in this rational model), and the returned field is
the zero field rather than the common snapshot value `[[5]]`. -/
theorem C2_diis_identical_residuals_degenerate (V : ℕ → ℕ → ℚ)
    (eig : ℕ → ℚ)
    (hdiag : SpecDiagonalize 3
      (validBlock 3 (updateOverlap 1 ovC2
        (prsC2 ++ [diisResidual MixedVariable.density evC2 pvnC2]))) V eig) :
    (∑ j in Finset.range 3, V j 0) = 0 ∧
    variableOf MixedVariable.density
        (mixDIIS 3 false MixedVariable.density (1/2) 1 (fun _ _ => (V, eig))
          evC2 pvnC2 [] prsC2 ovC2).1 = [[0]] ∧
    ([[0]] : DataRptrCollection) ≠ [[5]] := by
  have hsum3 := ones3_col0_sum_zero _ V eig ovC2_block_all_ones hdiag
  have hsum : (∑ j in Finset.range 3, V j 0) = 0 := by
    simp only [Finset.sum_range_succ, Finset.sum_range_zero, zero_add]
    exact hsum3
  refine ⟨hsum, ?_, by norm_num⟩
  rw [mixDIIS_full_var 3 false MixedVariable.density (1/2) 1
    (fun _ _ => (V, eig)) evC2 pvnC2 [] prsC2 ovC2 rfl]
  show diisCombine (fun j => V j 0) (prsC2.length + 1)
      (variableOf MixedVariable.density evC2) pvnC2 = [[0]]
  have hlen : prsC2.length + 1 = 3 := rfl
  rw [hlen]
  simp only [diisCombine, hsum, div_zero]
  show axpyColl 0 [[5]] (axpyColl 0 [[5]] (axpyColl 0 [[5]] [[0]])) = [[0]]
  norm_num [axpyColl, axpyField]

/-- C2 witness instance: a concrete spec-valid eigendecomposition of the
all-ones 3×3 block - columns `(1,-1,0)`, `(1,1,-2)`, `(1,1,1)`. -/
def VC2 : ℕ → ℕ → ℚ := fun i j =>
  if j = 0 then (if i = 0 then 1 else if i = 1 then -1 else 0)
  else if j = 1 then
    (if i = 0 then 1 else if i = 1 then 1 else if i = 2 then -2 else 0)
  else if j = 2 then (if i < 3 then 1 else 0)
  else 0

/-- C2 witness instance: eigenvalues `(0, 0, 3)` in ascending order. -/
def eigC2 : ℕ → ℚ := fun k => if k = 2 then 3 else 0

lemma VC2_spec : SpecDiagonalize 3
    (validBlock 3 (updateOverlap 1 ovC2
      (prsC2 ++ [diisResidual MixedVariable.density evC2 pvnC2]))) VC2 eigC2 := by
  have hM := ovC2_block_all_ones
  refine ⟨?_, ?_, ?_, ?_⟩
  · intro k hk i hi
    simp only [Finset.sum_range_succ, Finset.sum_range_zero, zero_add]
    rw [hM i hi 0 (by norm_num), hM i hi 1 (by norm_num),
      hM i hi 2 (by norm_num)]
    interval_cases k <;> interval_cases i <;> norm_num [VC2, eigC2]
  · intro k hk
    simp only [Finset.sum_range_succ, Finset.sum_range_zero, zero_add]
    interval_cases k <;> norm_num [VC2]
  · intro k hk l hl hne
    simp only [Finset.sum_range_succ, Finset.sum_range_zero, zero_add]
    interval_cases k <;> interval_cases l <;>
      first
        | exact absurd rfl hne
        | norm_num [VC2]
  · intro k hk l hl hkl
    interval_cases k <;> interval_cases l <;>
      first
        | omega
        | norm_num [eigC2]

/-- Witness for C2: the concrete decomposition satisfies the eigensolver
contract, and the degenerate outcome follows. -/
theorem C2_diis_identical_residuals_degenerate_witness :
    SpecDiagonalize 3
      (validBlock 3 (updateOverlap 1 ovC2
        (prsC2 ++ [diisResidual MixedVariable.density evC2 pvnC2]))) VC2 eigC2 ∧
    (∑ j in Finset.range 3, VC2 j 0) = 0 ∧
    variableOf MixedVariable.density
        (mixDIIS 3 false MixedVariable.density (1/2) 1
          (fun _ _ => (VC2, eigC2)) evC2 pvnC2 [] prsC2 ovC2).1 = [[0]] :=
  ⟨VC2_spec,
    (C2_diis_identical_residuals_degenerate VC2 eigC2 VC2_spec).1,
    (C2_diis_identical_residuals_degenerate VC2 eigC2 VC2_spec).2.1⟩

/-! ### SCF loop: projection lemmas and control-flow facts -/

lemma clearIfFull_ev (p : ScfParams) (s : ScfState) :
    (clearIfFull p s).ev = s.ev := by
  unfold clearIfFull
  split_ifs <;> rfl

lemma clearIfFull_E (p : ScfParams) (s : ScfState) :
    (clearIfFull p s).E = s.E := by
  unfold clearIfFull
  split_ifs <;> rfl

lemma clearIfFull_converged (p : ScfParams) (s : ScfState) :
    (clearIfFull p s).converged = s.converged := by
  unfold clearIfFull
  split_ifs <;> rfl

lemma cacheVars_ev (p : ScfParams) (s : ScfState) :
    (cacheVars p s).ev = s.ev := rfl

lemma cacheVars_Eprev (p : ScfParams) (s : ScfState) :
    (cacheVars p s).Eprev = s.E := rfl

lemma cacheVars_converged (p : ScfParams) (s : ScfState) :
    (cacheVars p s).converged = s.converged := rfl

/-- The convergence flag after one step: set exactly when the energy test
fires at this iteration, otherwise carried over. -/
lemma scfStep_converged (p : ScfParams) (solve : ℕ → ElecVars → ElecVars × ℚ)
    (recompute : ElecVars → ElecVars)
    (diag : ℕ → (ℕ → ℕ → ℚ) → (ℕ → ℕ → ℚ) × (ℕ → ℚ)) (k : ℕ) (s : ScfState) :
    (scfStep p solve recompute diag k s).converged
      = (if |(solve k s.ev).2 - s.E| < p.energyDiffThreshold then true
         else s.converged) := by
  unfold scfStep
  simp only [cacheVars_ev, clearIfFull_ev, cacheVars_Eprev, clearIfFull_E]
  split_ifs
  all_goals
    first
      | rfl
      | (cases p.vectorExtrapolationMethod <;>
          simp [cacheVars_converged, clearIfFull_converged])

/-- Energy bookkeeping of one non-final step: the state after a step holds
the step's computed energy in `E` and the previous `E` in `Eprev`. -/
lemma scfStep_E (p : ScfParams) (solve : ℕ → ElecVars → ElecVars × ℚ)
    (recompute : ElecVars → ElecVars)
    (diag : ℕ → (ℕ → ℕ → ℚ) → (ℕ → ℕ → ℚ) × (ℕ → ℚ)) (k : ℕ) (s : ScfState) :
    (scfStep p solve recompute diag k s).E = (solve k s.ev).2 ∧
    (scfStep p solve recompute diag k s).Eprev = s.E := by
  unfold scfStep
  simp only [cacheVars_ev, clearIfFull_ev, cacheVars_Eprev, clearIfFull_E]
  split_ifs
  all_goals
    first
      | exact ⟨rfl, rfl⟩
      | (cases p.vectorExtrapolationMethod <;> exact ⟨rfl, rfl⟩)

/-- One unit of fuel runs exactly one step. -/
lemma scfRunAux_one (p : ScfParams) (solve : ℕ → ElecVars → ElecVars × ℚ)
    (recompute : ElecVars → ElecVars)
    (diag : ℕ → (ℕ → ℕ → ℚ) → (ℕ → ℕ → ℚ) × (ℕ → ℚ)) (s : ScfState) :
    scfRunAux p solve recompute diag 1 0 s
      = (scfStep p solve recompute diag 0 s, 1) := by
  show (if (scfStep p solve recompute diag 0 s).converged = true
      then (scfStep p solve recompute diag 0 s, 0 + 1)
      else scfRunAux p solve recompute diag 0 1
        (scfStep p solve recompute diag 0 s))
    = (scfStep p solve recompute diag 0 s, 1)
  split_ifs <;> rfl

/-- The iteration counter never exceeds the initial counter plus the fuel. -/
lemma scfRunAux_count_le (p : ScfParams) (solve : ℕ → ElecVars → ElecVars × ℚ)
    (recompute : ElecVars → ElecVars)
    (diag : ℕ → (ℕ → ℕ → ℚ) → (ℕ → ℕ → ℚ) × (ℕ → ℚ)) :
    ∀ (fuel k : ℕ) (s : ScfState),
      (scfRunAux p solve recompute diag fuel k s).2 ≤ k + fuel := by
  intro fuel
  induction fuel with
  | zero => intro k s; simp [scfRunAux]
  | succ fuel ih =>
      intro k s
      simp only [scfRunAux]
      split_ifs
      · simp
      · have := ih (k + 1) (scfStep p solve recompute diag k s)
        omega

/-- A converging step ends the run with `k + 1` iterations used. -/
lemma scfRunAux_converged_step (p : ScfParams)
    (solve : ℕ → ElecVars → ElecVars × ℚ) (recompute : ElecVars → ElecVars)
    (diag : ℕ → (ℕ → ℕ → ℚ) → (ℕ → ℕ → ℚ) × (ℕ → ℚ)) (fuel k : ℕ)
    (s : ScfState)
    (h : (scfStep p solve recompute diag k s).converged = true) :
    scfRunAux p solve recompute diag (fuel + 1) k s
      = (scfStep p solve recompute diag k s, k + 1) := by
  simp [scfRunAux, h]

/-- C1 instance: plain-mixing configuration with threshold 1 and a budget of
5 iterations. -/
def pC1 : ScfParams :=
  { history := 3, nIterations := 5, energyDiffThreshold := 1,
    mixedVariable := MixedVariable.density,
    vectorExtrapolationMethod := ExtrapMethod.plainMixing,
    needsTau := false, mixFraction := 1/2, dV := 1 }

/-- C1 instance: an inner solver whose first computed energy is 0. -/
def solveC1 : ℕ → ElecVars → ElecVars × ℚ := fun _ ev => (ev, 0)

/-- Trivial eigensolver oracle for loop instances that never reach DIIS. -/
def diagC1 : ℕ → (ℕ → ℕ → ℚ) → (ℕ → ℕ → ℚ) × (ℕ → ℚ) :=
  fun _ _ => (fun _ _ => 0, fun _ => 0)

/-- Initial electronic variables for the loop instances. -/
def evInitC1 : ElecVars := { n := [[1]], tau := [], Vscloc := [], Vtau := [] }

/-- C1 (refuted; code bug): the source declares `double Eprev = 0, E;` and
executes `Eprev = E` on iteration 0, so the convergence test compares the
first computed energy against the *indeterminate* initial content of `E`
(modelled by the run's `Einit` parameter).  When the first energy lands
within `ε` of that value - here `Einit = 0` (e.g. zero-initialized memory)
and first energy 0 with `ε = 1` - the loop reports convergence on iteration
0, which the specification says can never happen. -/
theorem C1_converges_on_iteration_zero :
    (scfMinimize pC1 solveC1 id diagC1 evInitC1 0 (fun _ _ => 0)).2 = 1 ∧
    (scfMinimize pC1 solveC1 id diagC1 evInitC1 0 (fun _ _ => 0)).1.converged
      = true := by
  have hconv : (scfStep pC1 solveC1 id diagC1 0
      (initState evInitC1 0 (fun _ _ => 0))).converged = true := by
    rw [scfStep_converged]
    norm_num [initState, solveC1, pC1]
  have h5 : pC1.nIterations = 4 + 1 := rfl
  constructor
  · show (scfRunAux pC1 solveC1 id diagC1 pC1.nIterations 0
      (initState evInitC1 0 (fun _ _ => 0))).2 = 1
    rw [h5, scfRunAux_converged_step _ _ _ _ _ _ _ hconv]
  · show (scfRunAux pC1 solveC1 id diagC1 pC1.nIterations 0
      (initState evInitC1 0 (fun _ _ => 0))).1.converged = true
    rw [h5, scfRunAux_converged_step _ _ _ _ _ _ _ hconv]
    exact hconv

/-- C9: the SCF loop performs at most `nIterations` outer iterations; and
with `nIterations = 1` and a first-iteration energy change at or above the
threshold, the run ends after exactly 1 iteration with `converged = false`. -/
theorem C9_iteration_cap (p : ScfParams) (solve : ℕ → ElecVars → ElecVars × ℚ)
    (recompute : ElecVars → ElecVars)
    (diag : ℕ → (ℕ → ℕ → ℚ) → (ℕ → ℕ → ℚ) × (ℕ → ℚ))
    (ev0 : ElecVars) (Einit : ℚ) (M0 : ℕ → ℕ → ℚ) :
    (scfMinimize p solve recompute diag ev0 Einit M0).2 ≤ p.nIterations ∧
    (p.nIterations = 1 →
      ¬(|(solve 0 ev0).2 - Einit| < p.energyDiffThreshold) →
      (scfMinimize p solve recompute diag ev0 Einit M0).2 = 1 ∧
      (scfMinimize p solve recompute diag ev0 Einit M0).1.converged = false) := by
  constructor
  · have h := scfRunAux_count_le p solve recompute diag p.nIterations 0
      (initState ev0 Einit M0)
    simpa [scfMinimize] using h
  · intro h1 hdelta
    have hstep : (scfStep p solve recompute diag 0
        (initState ev0 Einit M0)).converged = false := by
      rw [scfStep_converged]
      simp only [initState]
      rw [if_neg hdelta]
    have hrun : scfMinimize p solve recompute diag ev0 Einit M0
        = (scfStep p solve recompute diag 0 (initState ev0 Einit M0), 1) := by
      show scfRunAux p solve recompute diag p.nIterations 0
          (initState ev0 Einit M0) = _
      rw [h1]
      exact scfRunAux_one p solve recompute diag (initState ev0 Einit M0)
    rw [hrun]
    exact ⟨rfl, hstep⟩

/-- C9 instance: a one-iteration budget with first energy 5, threshold 1. -/
def pC9 : ScfParams :=
  { history := 3, nIterations := 1, energyDiffThreshold := 1,
    mixedVariable := MixedVariable.density,
    vectorExtrapolationMethod := ExtrapMethod.plainMixing,
    needsTau := false, mixFraction := 1/2, dV := 1 }

/-- C9 instance: an inner solver returning energy 5. -/
def solveC9 : ℕ → ElecVars → ElecVars × ℚ := fun _ ev => (ev, 5)

/-- Witness for C9 at a concrete one-iteration unconverged run. -/
theorem C9_iteration_cap_witness :
    pC9.nIterations = 1 ∧
    ¬(|(solveC9 0 evInitC1).2 - (0 : ℚ)| < pC9.energyDiffThreshold) ∧
    (scfMinimize pC9 solveC9 id diagC1 evInitC1 0 (fun _ _ => 0)).2 = 1 ∧
    (scfMinimize pC9 solveC9 id diagC1 evInitC1 0 (fun _ _ => 0)).1.converged
      = false := by
  have hd : ¬(|(solveC9 0 evInitC1).2 - (0 : ℚ)| < pC9.energyDiffThreshold) := by
    norm_num [solveC9, pC9]
  have h := (C9_iteration_cap pC9 solveC9 id diagC1 evInitC1 0
    (fun _ _ => 0)).2 rfl hd
  exact ⟨rfl, hd, h.1, h.2⟩

/-! ### History buffer bookkeeping -/

/-- The buffer invariant of the run: no history buffer ever exceeds the
configured depth, the auxiliary-variable history tracks the main one exactly
when the KE density is needed, and stays empty otherwise. -/
def BufInv (p : ScfParams) (s : ScfState) : Prop :=
  s.pastVariables_n.length ≤ p.history ∧
  s.pastResiduals.length ≤ p.history ∧
  s.pastVariables_tau.length ≤ p.history ∧
  (p.needsTau = true →
    s.pastVariables_tau.length = s.pastVariables_n.length) ∧
  (p.needsTau = false → s.pastVariables_tau = [])

lemma cacheVars_pvn (p : ScfParams) (s : ScfState) :
    (cacheVars p s).pastVariables_n
      = s.pastVariables_n ++ [variableOf p.mixedVariable s.ev] := rfl

lemma cacheVars_ptau (p : ScfParams) (s : ScfState) :
    (cacheVars p s).pastVariables_tau
      = (if p.needsTau then
          s.pastVariables_tau ++ [varTauOf p.mixedVariable s.ev]
         else s.pastVariables_tau) := rfl

lemma cacheVars_prs (p : ScfParams) (s : ScfState) :
    (cacheVars p s).pastResiduals = s.pastResiduals := rfl

lemma clearIfFull_trigger (p : ScfParams) (s : ScfState)
    (h : p.history ≤ s.pastResiduals.length ∨
      p.history ≤ s.pastVariables_n.length) :
    (clearIfFull p s).pastVariables_n = [] ∧
    (clearIfFull p s).pastVariables_tau
      = (if p.needsTau then [] else s.pastVariables_tau) ∧
    (clearIfFull p s).pastResiduals
      = (if p.vectorExtrapolationMethod = ExtrapMethod.DIIS then []
         else s.pastResiduals) := by
  unfold clearIfFull
  rw [if_pos h]
  exact ⟨rfl, rfl, rfl⟩

lemma clearIfFull_no_trigger (p : ScfParams) (s : ScfState)
    (h : ¬(p.history ≤ s.pastResiduals.length ∨
      p.history ≤ s.pastVariables_n.length)) :
    clearIfFull p s = s := by
  unfold clearIfFull
  rw [if_neg h]

lemma mixDIIS_prs (p_history : ℕ) (needsTau : Bool) (mv : MixedVariable)
    (mixFraction dV : ℚ)
    (diag : ℕ → (ℕ → ℕ → ℚ) → (ℕ → ℕ → ℚ) × (ℕ → ℚ))
    (ev : ElecVars) (pvn pvt prs : List DataRptrCollection)
    (overlap : ℕ → ℕ → ℚ) :
    (mixDIIS p_history needsTau mv mixFraction dV diag ev pvn pvt prs
      overlap).2.1 = prs ++ [diisResidual mv ev pvn] := by
  simp only [mixDIIS]
  split_ifs <;> rfl

lemma scfStep_pvn (p : ScfParams) (solve : ℕ → ElecVars → ElecVars × ℚ)
    (recompute : ElecVars → ElecVars)
    (diag : ℕ → (ℕ → ℕ → ℚ) → (ℕ → ℕ → ℚ) × (ℕ → ℚ)) (k : ℕ) (s : ScfState) :
    (scfStep p solve recompute diag k s).pastVariables_n
      = (cacheVars p (clearIfFull p s)).pastVariables_n := by
  simp only [scfStep]
  split_ifs
  all_goals first | rfl | (cases p.vectorExtrapolationMethod <;> rfl)

lemma scfStep_ptau (p : ScfParams) (solve : ℕ → ElecVars → ElecVars × ℚ)
    (recompute : ElecVars → ElecVars)
    (diag : ℕ → (ℕ → ℕ → ℚ) → (ℕ → ℕ → ℚ) × (ℕ → ℚ)) (k : ℕ) (s : ScfState) :
    (scfStep p solve recompute diag k s).pastVariables_tau
      = (cacheVars p (clearIfFull p s)).pastVariables_tau := by
  simp only [scfStep]
  split_ifs
  all_goals first | rfl | (cases p.vectorExtrapolationMethod <;> rfl)

lemma scfStep_prs_cases (p : ScfParams) (solve : ℕ → ElecVars → ElecVars × ℚ)
    (recompute : ElecVars → ElecVars)
    (diag : ℕ → (ℕ → ℕ → ℚ) → (ℕ → ℕ → ℚ) × (ℕ → ℚ)) (k : ℕ) (s : ScfState) :
    (scfStep p solve recompute diag k s).pastResiduals
        = (clearIfFull p s).pastResiduals ∨
    (p.vectorExtrapolationMethod = ExtrapMethod.DIIS ∧
      ∃ r, (scfStep p solve recompute diag k s).pastResiduals
        = (clearIfFull p s).pastResiduals ++ [r]) := by
  simp only [scfStep]
  split_ifs
  · left; rfl
  · cases hm : p.vectorExtrapolationMethod
    · left; rfl
    · right
      refine ⟨rfl, diisResidual p.mixedVariable
        (solve k (cacheVars p (clearIfFull p s)).ev).1
        (cacheVars p (clearIfFull p s)).pastVariables_n, ?_⟩
      simp [mixDIIS_prs, cacheVars_prs]
  · cases hm : p.vectorExtrapolationMethod
    · left; rfl
    · right
      refine ⟨rfl, diisResidual p.mixedVariable
        (solve k (cacheVars p (clearIfFull p s)).ev).1
        (cacheVars p (clearIfFull p s)).pastVariables_n, ?_⟩
      simp [mixDIIS_prs, cacheVars_prs]

lemma BufInv_init (p : ScfParams) (ev0 : ElecVars) (Einit : ℚ)
    (M0 : ℕ → ℕ → ℚ) : BufInv p (initState ev0 Einit M0) :=
  ⟨Nat.zero_le _, Nat.zero_le _, Nat.zero_le _, fun _ => rfl, fun _ => rfl⟩

lemma BufInv_step (p : ScfParams) (solve : ℕ → ElecVars → ElecVars × ℚ)
    (recompute : ElecVars → ElecVars)
    (diag : ℕ → (ℕ → ℕ → ℚ) → (ℕ → ℕ → ℚ) × (ℕ → ℚ))
    (hH : 1 ≤ p.history) (k : ℕ) (s : ScfState) (h : BufInv p s) :
    BufInv p (scfStep p solve recompute diag k s) := by
  obtain ⟨h1, h2, h3, h4, h5⟩ := h
  by_cases htr : p.history ≤ s.pastResiduals.length ∨
      p.history ≤ s.pastVariables_n.length
  · obtain ⟨e1, e2, e3⟩ := clearIfFull_trigger p s htr
    refine ⟨?_, ?_, ?_, ?_, ?_⟩
    · rw [scfStep_pvn, cacheVars_pvn, e1]
      simpa using hH
    · rcases scfStep_prs_cases p solve recompute diag k s with hp | ⟨hm, r, hp⟩
      · rw [hp, e3]
        split_ifs
        · simp
        · exact h2
      · rw [hp, e3, if_pos hm]
        simpa using hH
    · rw [scfStep_ptau, cacheVars_ptau, e2]
      cases ht : p.needsTau
      · simp only [Bool.false_eq_true, if_false]
        rw [h5 ht]
        simpa using hH
      · simp only [if_true]
        simpa using hH
    · intro ht
      rw [scfStep_ptau, scfStep_pvn, cacheVars_ptau, cacheVars_pvn, e1, e2,
        if_pos (by rw [ht]), if_pos (by rw [ht])]
      simp
    · intro ht
      rw [scfStep_ptau, cacheVars_ptau, e2, ht]
      simp only [Bool.false_eq_true, if_false]
      exact h5 ht
  · have e := clearIfFull_no_trigger p s htr
    have hlt1 : s.pastVariables_n.length < p.history := by omega
    have hlt2 : s.pastResiduals.length < p.history := by omega
    refine ⟨?_, ?_, ?_, ?_, ?_⟩
    · rw [scfStep_pvn, cacheVars_pvn, e]
      simp only [List.length_append, List.length_cons, List.length_nil]
      omega
    · rcases scfStep_prs_cases p solve recompute diag k s with hp | ⟨hm, r, hp⟩
      · rw [hp, e]
        exact h2
      · rw [hp, e]
        simp only [List.length_append, List.length_cons, List.length_nil]
        omega
    · rw [scfStep_ptau, cacheVars_ptau, e]
      cases ht : p.needsTau
      · simp only [Bool.false_eq_true, if_false]
        exact h3
      · simp only [if_true]
        rw [List.length_append, h4 ht]
        simp only [List.length_cons, List.length_nil]
        omega
    · intro ht
      rw [scfStep_ptau, scfStep_pvn, cacheVars_ptau, cacheVars_pvn, e,
        if_pos (by rw [ht])]
      simp [h4 ht]
    · intro ht
      rw [scfStep_ptau, cacheVars_ptau, e, ht]
      simpa using h5 ht

lemma BufInv_run (p : ScfParams) (solve : ℕ → ElecVars → ElecVars × ℚ)
    (recompute : ElecVars → ElecVars)
    (diag : ℕ → (ℕ → ℕ → ℚ) → (ℕ → ℕ → ℚ) × (ℕ → ℚ))
    (hH : 1 ≤ p.history) :
    ∀ (fuel k : ℕ) (s : ScfState), BufInv p s →
      BufInv p (scfRunAux p solve recompute diag fuel k s).1 := by
  intro fuel
  induction fuel with
  | zero => intro k s h; exact h
  | succ fuel ih =>
      intro k s h
      simp only [scfRunAux]
      split_ifs
      · exact BufInv_step p solve recompute diag hH k s h
      · exact ih (k + 1) _ (BufInv_step p solve recompute diag hH k s h)

lemma scfStep_reset (p : ScfParams) (solve : ℕ → ElecVars → ElecVars × ℚ)
    (recompute : ElecVars → ElecVars)
    (diag : ℕ → (ℕ → ℕ → ℚ) → (ℕ → ℕ → ℚ) × (ℕ → ℚ)) (k : ℕ) (s : ScfState)
    (htr : p.history ≤ s.pastResiduals.length ∨
      p.history ≤ s.pastVariables_n.length) :
    (scfStep p solve recompute diag k s).pastVariables_n
      = [variableOf p.mixedVariable s.ev] ∧
    (p.needsTau = true →
      (scfStep p solve recompute diag k s).pastVariables_tau
        = [varTauOf p.mixedVariable s.ev]) ∧
    (p.vectorExtrapolationMethod = ExtrapMethod.DIIS →
      ¬(|(solve k s.ev).2 - s.E| < p.energyDiffThreshold) →
      (scfStep p solve recompute diag k s).pastResiduals
        = [diisResidual p.mixedVariable (solve k s.ev).1
            [variableOf p.mixedVariable s.ev]]) := by
  obtain ⟨e1, e2, e3⟩ := clearIfFull_trigger p s htr
  refine ⟨?_, ?_, ?_⟩
  · rw [scfStep_pvn, cacheVars_pvn, e1, clearIfFull_ev]
    simp
  · intro ht
    rw [scfStep_ptau, cacheVars_ptau, e2, clearIfFull_ev, if_pos (by rw [ht])]
    rw [if_pos (by rw [ht])]
    simp
  · intro hm hconv
    simp only [scfStep, cacheVars_ev, clearIfFull_ev, cacheVars_Eprev,
      clearIfFull_E]
    rw [if_neg hconv, hm]
    split_ifs
    all_goals
      simp only [mixDIIS_prs, cacheVars_prs, cacheVars_pvn, e1, e3,
        clearIfFull_ev, if_pos hm, List.nil_append]

/-- C4: at every point of a run each history buffer holds at most `H`
entries (the invariant holds initially, is preserved by every step, and thus
holds in every state the driver reaches), and when an append would exceed
`H` - the clear-if-full test at the top of the loop body fires - the whole
buffer is reset, so immediately after that iteration's append the snapshot
buffers hold exactly the one newly appended entry, and (under DIIS, when the
step does not converge) the residual buffer holds exactly the one newly
appended residual. -/
theorem C4_history_buffer_bounded_and_reset (p : ScfParams)
    (solve : ℕ → ElecVars → ElecVars × ℚ) (recompute : ElecVars → ElecVars)
    (diag : ℕ → (ℕ → ℕ → ℚ) → (ℕ → ℕ → ℚ) × (ℕ → ℚ))
    (hH : 1 ≤ p.history) :
    (∀ ev0 Einit M0, BufInv p (initState ev0 Einit M0)) ∧
    (∀ k s, BufInv p s → BufInv p (scfStep p solve recompute diag k s)) ∧
    (∀ fuel k s, BufInv p s →
      BufInv p (scfRunAux p solve recompute diag fuel k s).1) ∧
    (∀ k s, p.history ≤ s.pastResiduals.length ∨
        p.history ≤ s.pastVariables_n.length →
      (scfStep p solve recompute diag k s).pastVariables_n
        = [variableOf p.mixedVariable s.ev] ∧
      (p.needsTau = true →
        (scfStep p solve recompute diag k s).pastVariables_tau
          = [varTauOf p.mixedVariable s.ev]) ∧
      (p.vectorExtrapolationMethod = ExtrapMethod.DIIS →
        ¬(|(solve k s.ev).2 - s.E| < p.energyDiffThreshold) →
        (scfStep p solve recompute diag k s).pastResiduals
          = [diisResidual p.mixedVariable (solve k s.ev).1
              [variableOf p.mixedVariable s.ev]])) := by
  refine ⟨BufInv_init p, ?_, ?_, ?_⟩
  · intro k s h
    exact BufInv_step p solve recompute diag hH k s h
  · intro fuel k s h
    exact BufInv_run p solve recompute diag hH fuel k s h
  · intro k s htr
    exact scfStep_reset p solve recompute diag k s htr

/-- C4 witness instance: a full snapshot buffer at depth 2. -/
def sW4 : ScfState :=
  { ev := { n := [[9]], tau := [], Vscloc := [], Vtau := [] },
    E := 0, Eprev := 0,
    pastVariables_n := [[[1]], [[2]]], pastVariables_tau := [],
    pastResiduals := [], overlap := fun _ _ => 0, converged := false }

/-- C4 witness instance: plain-mixing parameters with depth 2. -/
def pW4 : ScfParams :=
  { history := 2, nIterations := 4, energyDiffThreshold := 1,
    mixedVariable := MixedVariable.density,
    vectorExtrapolationMethod := ExtrapMethod.plainMixing,
    needsTau := false, mixFraction := 1/2, dV := 1 }

/-- Witness for C4: a concrete full buffer is reset to exactly the new
snapshot by the next step, and the invariant is preserved there. -/
theorem C4_history_buffer_bounded_and_reset_witness :
    (1 ≤ pW4.history) ∧ BufInv pW4 sW4 ∧
    (scfStep pW4 solveC1 id diagC1 0 sW4).pastVariables_n
      = [variableOf pW4.mixedVariable sW4.ev] := by
  have h := C4_history_buffer_bounded_and_reset pW4 solveC1 id diagC1
    (by decide)
  refine ⟨by decide, by unfold BufInv; decide, ?_⟩
  exact (h.2.2.2 0 sW4 (by decide)).1

end JDFTxSCF
